import Mathlib

/-
Verification of the outline store in src/404/outliner.py.

The Python model classes `OutlineItem` and `OutlineModel` are shallowly
embedded as follows:

* Python strings (node keys and texts) are modelled as `List Char`.
* Python object references are modelled by an append-only heap
  `nodes : List OutlineItem`; an object reference is an index into this
  heap.  Deleting an item removes its entry from the key mapping but the
  heap slot is kept (it corresponds to the garbage Python object, which
  is unreachable through the store once no reference points at it).
* The Python dict `all_items` is an association list; assignment conses
  a (shadowing) entry at the front, `del` removes every entry for the
  key, and lookup takes the first match.  This matches dict semantics
  for lookup/assignment/deletion; dict iteration is never used by the
  source.
* The Python set `updated_items` is a duplicate-free list; `add` appends
  when the element is absent.  The source only iterates, adds, discards
  and clears it, so its (unspecified) iteration order is the list order.
* Every call of `time.time()` inside one store operation is modelled by
  the single timestamp argument `t : Nat` of that operation.
* The recursion in `delete_item` is modelled with explicit fuel; the
  public `delete_item` supplies `all_items.length + 1` fuel, which is
  proved sufficient on well-formed stores (`Winv`).
* `del self.all_items[path]` is modelled as removal of the key; the
  `KeyError` case cannot arise on well-formed stores because child keys
  are strictly longer than the deleted key.
-/

abbrev Key := List Char

def rootKey : Key := ['/', 'o', 'u', 't', 'l', 'i', 'n', 'e', '/']

/-- Python `path.split("/")` on the character list of the string. -/
def splitSlash : Key → List Key
  | [] => [[]]
  | c :: cs =>
    if c = '/' then [] :: splitSlash cs
    else
      match splitSlash cs with
      | [] => [[c]]
      | p :: ps => (c :: p) :: ps

/-- Python `"/".join(parts)`. -/
def joinSlash : List Key → Key
  | [] => []
  | [x] => x
  | x :: y :: ys => x ++ '/' :: joinSlash (y :: ys)

/-- Python `"/".join(path.split("/")[:-2]) + "/"` from `delete_item`. -/
def parentPathOf (path : Key) : Key :=
  joinSlash ((splitSlash path).dropLast.dropLast) ++ ['/']

/-- Python `f"{n}"` for a nonnegative int: decimal digits. -/
def natToChars (n : Nat) : Key := Nat.toDigits 10 n

/-- Dict lookup: first matching entry. -/
def dictGet (d : List (Key × Nat)) (k : Key) : Option Nat :=
  (d.find? (fun p => p.1 == k)).map (fun p => p.2)

/-- Dict assignment `d[k] = v` (new entry shadows older ones). -/
def dictInsert (d : List (Key × Nat)) (k : Key) (v : Nat) : List (Key × Nat) :=
  (k, v) :: d

/-- Dict deletion `del d[k]`. -/
def dictRemove (d : List (Key × Nat)) (k : Key) : List (Key × Nat) :=
  d.filter (fun p => !(p.1 == k))

/-- Set insertion `s.add(k)` for the duplicate-free list model of a set. -/
def setAdd (s : List Key) (k : Key) : List Key :=
  if k ∈ s then s else s ++ [k]

/-- The Python class `OutlineItem` (children hold heap references). -/
structure OutlineItem where
  url : Key
  text : Key
  children : List Nat
  last_modified : Nat
deriving DecidableEq, Repr

/-- `OutlineItem.add_child` (appends the reference, bumps `last_modified`). -/
def OutlineItem.add_child (self : OutlineItem) (childId : Nat) (t : Nat) : OutlineItem :=
  { self with children := self.children ++ [childId], last_modified := t }

/-- `OutlineItem.remove_child`: removal is by object identity (the class
has no `__eq__`), i.e. by heap reference; returns the updated item and
the boolean result. -/
def OutlineItem.remove_child (self : OutlineItem) (childId : Nat) (t : Nat) :
    OutlineItem × Bool :=
  if childId ∈ self.children then
    ({ self with children := self.children.erase childId, last_modified := t }, true)
  else (self, false)

/-- The Python class `OutlineModel` (its mutable state). -/
structure OutlineModel where
  nodes : List OutlineItem
  all_items : List (Key × Nat)
  updated_items : List Key
  item_count : Nat
deriving DecidableEq, Repr

/-- The root item as built by `OutlineModel.__init__`. -/
def rootItem (t0 : Nat) : OutlineItem :=
  { url := rootKey,
    text := ['M', 'y', ' ', 'O', 'u', 't', 'l', 'i', 'n', 'e'],
    children := [], last_modified := t0 }

/-- `OutlineModel.__init__` (root text is set to "My Outline"). -/
def initModel (t0 : Nat) : OutlineModel :=
  { nodes := [rootItem t0],
    all_items := [(rootKey, 0)],
    updated_items := [],
    item_count := 0 }

/-- Resolve a key to a heap reference together with the referenced item.
In Python the dict stores the object itself; here the reference and the
heap slot are returned together. -/
def OutlineModel.lookup (m : OutlineModel) (path : Key) : Option (Nat × OutlineItem) :=
  match dictGet m.all_items path with
  | none => none
  | some i =>
    match m.nodes[i]? with
    | none => none
    | some it => some (i, it)

/-- `OutlineModel.get_item`. -/
def OutlineModel.get_item (m : OutlineModel) (path : Key) : Option OutlineItem :=
  (m.lookup path).map (fun p => p.2)

/-- `OutlineModel.create_item`. -/
def OutlineModel.create_item (m : OutlineModel) (parent_path text : Key) (t : Nat) :
    Option (OutlineItem × OutlineModel) :=
  match m.lookup parent_path with
  | none => none
  | some (pid, parent) =>
    let new_url := parent_path ++ natToChars parent.children.length ++ ['/']
    let new_id := m.nodes.length
    let new_item : OutlineItem :=
      { url := new_url, text := text, children := [], last_modified := t }
    some (new_item,
      { nodes := (m.nodes.set pid (parent.add_child new_id t)) ++ [new_item],
        all_items := dictInsert m.all_items new_url new_id,
        updated_items := setAdd (setAdd m.updated_items new_url) parent_path,
        item_count := m.item_count + 1 })

/-- `OutlineModel.update_item`. -/
def OutlineModel.update_item (m : OutlineModel) (path text : Key) (t : Nat) :
    Option (OutlineItem × OutlineModel) :=
  match m.lookup path with
  | none => none
  | some (i, item) =>
    let item' := { item with text := text, last_modified := t }
    some (item', { m with nodes := m.nodes.set i item',
                          updated_items := setAdd m.updated_items path })

/-- `OutlineModel.delete_item`, with explicit fuel for the recursion.
The loop `for child in list(item.children)` iterates over a snapshot of
the child references; `child.url` is read from the heap at snapshot
time (urls are immutable, so this agrees with Python). -/
def deleteFuel : Nat → OutlineModel → Key → Nat → Bool × OutlineModel
  | 0, m, _, _ => (false, m)
  | fuel+1, m, path, t =>
    if path = rootKey then (false, m)
    else
      match m.lookup path with
      | none => (false, m)
      | some (id, item) =>
        let childUrls := item.children.filterMap
          (fun cid => (m.nodes[cid]?).map (fun c => c.url))
        let m1 := childUrls.foldl (fun acc u => (deleteFuel fuel acc u t).2) m
        let pp := parentPathOf path
        let m2 :=
          match m1.lookup pp with
          | none => m1
          | some (pid, pit) =>
            { m1 with nodes := m1.nodes.set pid (pit.remove_child id t).1 }
        (true, { m2 with all_items := dictRemove m2.all_items path,
                         updated_items := setAdd m2.updated_items pp })

/-- Public `delete_item`; the fuel is one more than the number of live
keys, which bounds the recursion depth on well-formed stores. -/
def OutlineModel.delete_item (m : OutlineModel) (path : Key) (t : Nat) :
    Bool × OutlineModel :=
  deleteFuel (m.all_items.length + 1) m path t

/-- `OutlineModel.cleanup_old_updates`: collect the old entries whose
node still exists, then discard each collected entry from the set. -/
def OutlineModel.cleanup_old_updates (m : OutlineModel) (cutoff_time : Nat) :
    OutlineModel :=
  let to_remove := m.updated_items.filter (fun u =>
    match m.get_item u with
    | some it => decide (it.last_modified < cutoff_time)
    | none => false)
  { m with updated_items := m.updated_items.filter (fun u => !(decide (u ∈ to_remove))) }

/-- `OutlineModel.get_updated_items`: filter the dirty set against
`since`, then sweep entries older than one hour.  `t` is the value of
`time.time()` during the call. -/
def OutlineModel.get_updated_items (m : OutlineModel) (since : Nat) (t : Nat) :
    List Key × OutlineModel :=
  let updated := m.updated_items.filter (fun u =>
    match m.get_item u with
    | some it => decide (since < it.last_modified)
    | none => false)
  (updated, m.cleanup_old_updates (t - 3600))

/-- `OutlineModel.clear_updated_items`. -/
def OutlineModel.clear_updated_items (m : OutlineModel) : OutlineModel :=
  { m with updated_items := [] }

/-- One store operation as issued by the transport layer, carrying the
clock value at which it runs. -/
inductive Op where
  | create (parent text : Key) (t : Nat)
  | update (path text : Key) (t : Nat)
  | delete (path : Key) (t : Nat)
deriving DecidableEq, Repr

/-- Apply one operation, discarding the returned value (failures leave
the state unchanged, as in the source). -/
def applyOp (m : OutlineModel) : Op → OutlineModel
  | Op.create p tx t =>
    match m.create_item p tx t with
    | none => m
    | some (_, m') => m'
  | Op.update p tx t =>
    match m.update_item p tx t with
    | none => m
    | some (_, m') => m'
  | Op.delete p t => (m.delete_item p t).2

def applyOps (m : OutlineModel) (ops : List Op) : OutlineModel :=
  ops.foldl applyOp m

/- ### Basic lemmas about the dict, set and heap models -/

theorem dictGet_cons (d : List (Key × Nat)) (k : Key) (v : Nat) (u : Key) :
    dictGet ((k, v) :: d) u = if k = u then some v else dictGet d u := by
  by_cases h : k = u
  · subst h
    rw [dictGet, List.find?_cons_of_pos _ (by simp)]
    simp
  · rw [dictGet, List.find?_cons_of_neg _ (by simpa using h)]
    simp [h, dictGet]

theorem dictGet_insert (d : List (Key × Nat)) (k : Key) (v : Nat) (u : Key) :
    dictGet (dictInsert d k v) u = if k = u then some v else dictGet d u :=
  dictGet_cons d k v u

theorem dictGet_remove (d : List (Key × Nat)) (k u : Key) :
    dictGet (dictRemove d k) u = if u = k then none else dictGet d u := by
  induction d with
  | nil => simp [dictRemove, dictGet]
  | cons p d ih =>
    obtain ⟨pk, pv⟩ := p
    by_cases h1 : pk = k
    · have hstep : dictRemove ((pk, pv) :: d) k = dictRemove d k := by
        simp [dictRemove, List.filter_cons, h1]
      rw [hstep, ih, dictGet_cons]
      by_cases h2 : u = k
      · simp [h2]
      · rw [if_neg h2, if_neg h2, if_neg (fun h => h2 (by rw [← h, h1]))]
    · have hstep : dictRemove ((pk, pv) :: d) k = (pk, pv) :: dictRemove d k := by
        simp [dictRemove, List.filter_cons, h1]
      rw [hstep, dictGet_cons, dictGet_cons]
      by_cases h2 : pk = u
      · subst h2
        rw [if_pos rfl, if_pos rfl, if_neg (fun h => h1 h)]
      · rw [if_neg h2, if_neg h2, ih]

theorem dictGet_mem {d : List (Key × Nat)} {u : Key} {i : Nat}
    (h : dictGet d u = some i) : (u, i) ∈ d := by
  unfold dictGet at h
  cases hf : d.find? (fun p => p.1 == u) with
  | none => rw [hf] at h; simp at h
  | some p =>
    rw [hf] at h
    simp only [Option.map_some'] at h  -- p.2 = i
    have hm := List.mem_of_find?_eq_some hf
    have hp : p.1 = u := by simpa using List.find?_some hf
    obtain ⟨p1, p2⟩ := p
    simp only at hp h
    rw [hp] at hm
    rw [Option.some.injEq] at h
    rwa [h] at hm

theorem dictGet_eq_none {d : List (Key × Nat)} {u : Key}
    (h : ∀ p ∈ d, p.1 ≠ u) : dictGet d u = none := by
  unfold dictGet
  rw [List.find?_eq_none.mpr (by intro p hp; simpa using h p hp)]
  rfl

theorem dictRemove_sublist (d : List (Key × Nat)) (k : Key) :
    (dictRemove d k).Sublist d :=
  List.filter_sublist d

theorem mem_setAdd {s : List Key} {k u : Key} :
    u ∈ setAdd s k ↔ u = k ∨ u ∈ s := by
  by_cases h : k ∈ s
  · simp only [setAdd, if_pos h]
    exact ⟨Or.inr, fun x => x.elim (fun e => e ▸ h) id⟩
  · simp [setAdd, if_neg h, List.mem_append, or_comm]

theorem mem_setAdd_of_mem {s : List Key} {k u : Key} (h : u ∈ s) :
    u ∈ setAdd s k := mem_setAdd.mpr (Or.inr h)

theorem self_mem_setAdd (s : List Key) (k : Key) : k ∈ setAdd s k :=
  mem_setAdd.mpr (Or.inl rfl)

theorem getElem?_set_append_self {l : List OutlineItem} {i : Nat}
    {a b : OutlineItem} (h : i < l.length) :
    ((l.set i a) ++ [b])[i]? = some a := by
  rw [List.getElem?_append_left (by simpa using h)]
  simp [List.getElem?_set, h]

theorem getElem?_set_append_last {l : List OutlineItem} {i : Nat}
    {a b : OutlineItem} :
    ((l.set i a) ++ [b])[l.length]? = some b := by
  have hl : (l.set i a).length = l.length := by simp
  rw [← hl]
  exact List.getElem?_concat_length _ _

theorem getElem?_set_append_other {l : List OutlineItem} {i j : Nat}
    {a b : OutlineItem} (h1 : j ≠ i) (h2 : j ≠ l.length) :
    ((l.set i a) ++ [b])[j]? = l[j]? := by
  rcases Nat.lt_or_ge j l.length with hlt | hge
  · rw [List.getElem?_append_left (by simpa using hlt)]
    rw [List.getElem?_set_ne (Ne.symm h1)]
  · have hgt : l.length < j := lt_of_le_of_ne hge (Ne.symm h2)
    rw [List.getElem?_eq_none (by simp; omega), List.getElem?_eq_none (by omega)]

theorem lookup_eq_some {m : OutlineModel} {path : Key} {i : Nat} {it : OutlineItem} :
    m.lookup path = some (i, it) ↔
      dictGet m.all_items path = some i ∧ m.nodes[i]? = some it := by
  constructor
  · intro h
    unfold OutlineModel.lookup at h
    split at h
    · exact absurd h (by simp)
    next j hj =>
      split at h
      · exact absurd h (by simp)
      next jt hjt =>
        rw [Option.some.injEq, Prod.mk.injEq] at h
        obtain ⟨rfl, rfl⟩ := h
        exact ⟨hj, hjt⟩
  · rintro ⟨h1, h2⟩
    unfold OutlineModel.lookup
    simp [h1, h2]

theorem lookup_none_of_dictGet_none {m : OutlineModel} {path : Key}
    (h : dictGet m.all_items path = none) : m.lookup path = none := by
  unfold OutlineModel.lookup
  rw [h]

theorem get_item_congr {m m' : OutlineModel} (hn : m'.nodes = m.nodes)
    (ha : m'.all_items = m.all_items) (u : Key) :
    m'.get_item u = m.get_item u := by
  unfold OutlineModel.get_item OutlineModel.lookup
  rw [hn, ha]

theorem get_item_eq_some {m : OutlineModel} {u : Key} {it : OutlineItem} :
    m.get_item u = some it ↔ ∃ i, m.lookup u = some (i, it) := by
  unfold OutlineModel.get_item
  cases h : m.lookup u with
  | none => simp
  | some p =>
    obtain ⟨p1, p2⟩ := p
    simp [Prod.ext_iff, eq_comm]

theorem get_item_eq_none {m : OutlineModel} {u : Key} :
    m.get_item u = none ↔ m.lookup u = none := by
  unfold OutlineModel.get_item
  cases h : m.lookup u <;> simp

theorem lm_bound_of_all {m : OutlineModel} {t : Nat}
    (h : m.nodes.all (fun (it : OutlineItem) => decide (it.last_modified ≤ t)) = true) :
    ∀ (j : Nat) (it : OutlineItem), m.nodes[j]? = some it → it.last_modified ≤ t := by
  intro j it hj
  obtain ⟨hlt, heq⟩ := List.getElem?_eq_some.mp hj
  have hm : it ∈ m.nodes := heq ▸ List.getElem_mem hlt
  simpa using (List.all_eq_true.mp h) it hm

/- ### Claim C1: createItem -/

/-- Claim C1: whenever `parentKey` resolves to an existing node,
`create_item` succeeds, returning a new node whose key is
`parentKey ++ childCountBeforeInsertion ++ "/"` carrying the given text;
the new node is appended to the parent's child sequence, inserted into
the key mapping, and both the new key and the parent key are marked
dirty.  If `parentKey` does not resolve, `create_item` fails (returns
the NotFound sentinel `none`). -/
theorem c1_create_item_spec (m : OutlineModel) (pk tx : Key) (t : Nat) :
    (∀ pid parent, m.lookup pk = some (pid, parent) →
      ∃ ni m', m.create_item pk tx t = some (ni, m') ∧
        ni.url = pk ++ natToChars parent.children.length ++ ['/'] ∧
        ni.text = tx ∧ ni.children = [] ∧
        m'.nodes[pid]? = some { parent with
          children := parent.children ++ [m.nodes.length],
          last_modified := t } ∧
        dictGet m'.all_items ni.url = some m.nodes.length ∧
        m'.nodes[m.nodes.length]? = some ni ∧
        ni.url ∈ m'.updated_items ∧ pk ∈ m'.updated_items) ∧
    (m.lookup pk = none → m.create_item pk tx t = none) := by
  constructor
  · intro pid parent h
    have hpid : pid < m.nodes.length := (List.getElem?_eq_some.mp (lookup_eq_some.mp h).2).1
    refine ⟨{ url := pk ++ natToChars parent.children.length ++ ['/'], text := tx,
              children := [], last_modified := t },
            { nodes := (m.nodes.set pid (parent.add_child m.nodes.length t))
                ++ [{ url := pk ++ natToChars parent.children.length ++ ['/'],
                      text := tx, children := [], last_modified := t }],
              all_items := dictInsert m.all_items
                (pk ++ natToChars parent.children.length ++ ['/']) m.nodes.length,
              updated_items := setAdd (setAdd m.updated_items
                (pk ++ natToChars parent.children.length ++ ['/'])) pk,
              item_count := m.item_count + 1 },
            ?_, rfl, rfl, rfl, ?_, ?_, ?_, ?_, ?_⟩
    · unfold OutlineModel.create_item
      rw [h]
    · exact getElem?_set_append_self hpid
    · simp [dictInsert, dictGet_cons]
    · exact getElem?_set_append_last
    · exact mem_setAdd_of_mem (self_mem_setAdd _ _)
    · exact self_mem_setAdd _ _
  · intro h
    unfold OutlineModel.create_item
    rw [h]

/-- Witness for C1 on the freshly initialised store. -/
theorem c1_create_item_witness :
    (∃ ni m', (initModel 0).create_item rootKey ['A'] 1 = some (ni, m') ∧
      ni.url = rootKey ++ natToChars (rootItem 0).children.length ++ ['/'] ∧
      ni.text = ['A'] ∧ ni.children = [] ∧
      m'.nodes[0]? = some { rootItem 0 with
        children := (rootItem 0).children ++ [(initModel 0).nodes.length],
        last_modified := 1 } ∧
      dictGet m'.all_items ni.url = some (initModel 0).nodes.length ∧
      m'.nodes[(initModel 0).nodes.length]? = some ni ∧
      ni.url ∈ m'.updated_items ∧ rootKey ∈ m'.updated_items) ∧
    (initModel 0).create_item ['x'] [] 1 = none :=
  ⟨(c1_create_item_spec (initModel 0) rootKey ['A'] 1).1 0 (rootItem 0) rfl,
   (c1_create_item_spec (initModel 0) ['x'] [] 1).2 rfl⟩

/- ### Claim C4: updateItem -/

/-- Claim C4: `update_item` fails (NotFound, i.e. `none`) exactly when
the key does not resolve, and failure leaves the store unchanged; on an
existing key it replaces the text, sets `last_modified` to the call
time (strictly increasing under an advancing clock), marks the key
dirty, returns the node, and modifies nothing else. -/
theorem c4_update_item_spec (m : OutlineModel) (k tx : Key) (t : Nat) :
    (m.update_item k tx t = none ↔ m.lookup k = none) ∧
    (m.update_item k tx t = none → applyOp m (Op.update k tx t) = m) ∧
    (∀ i it, m.lookup k = some (i, it) →
      ∃ m', m.update_item k tx t
          = some ({ it with text := tx, last_modified := t }, m') ∧
        m'.nodes[i]? = some { it with text := tx, last_modified := t } ∧
        (∀ j, j ≠ i → m'.nodes[j]? = m.nodes[j]?) ∧
        m'.all_items = m.all_items ∧
        m'.item_count = m.item_count ∧
        k ∈ m'.updated_items ∧
        (∀ u, u ∈ m'.updated_items ↔ u = k ∨ u ∈ m.updated_items) ∧
        (it.last_modified < t → it.last_modified <
          ({ it with text := tx, last_modified := t } : OutlineItem).last_modified)) := by
  refine ⟨?_, ?_, ?_⟩
  · unfold OutlineModel.update_item
    cases h : m.lookup k with
    | none => simp
    | some p => obtain ⟨i, it⟩ := p; simp
  · intro h
    simp only [applyOp]
    rw [h]
  · intro i it h
    have hi : i < m.nodes.length := (List.getElem?_eq_some.mp (lookup_eq_some.mp h).2).1
    refine ⟨{ m with
              nodes := m.nodes.set i ({ it with text := tx, last_modified := t }),
              updated_items := setAdd m.updated_items k },
            ?_, ?_, ?_, ?_, ?_, ?_, ?_, ?_⟩
    · unfold OutlineModel.update_item
      rw [h]
    · simp [List.getElem?_set, hi]
    · intro j hj
      exact List.getElem?_set_ne (Ne.symm hj)
    · rfl
    · rfl
    · exact self_mem_setAdd _ _
    · exact fun u => mem_setAdd
    · exact fun h' => h'

/-- Witness for C4: a failing update on a missing key and a successful
update of the root on the freshly initialised store. -/
theorem c4_update_item_witness :
    ((initModel 0).update_item ['x'] [] 1 = none) ∧
    (∃ m', (initModel 0).update_item rootKey ['N'] 5
        = some ({ rootItem 0 with text := ['N'], last_modified := 5 }, m') ∧
      m'.nodes[0]? = some { rootItem 0 with text := ['N'], last_modified := 5 } ∧
      rootKey ∈ m'.updated_items ∧
      (rootItem 0).last_modified <
        ({ rootItem 0 with text := ['N'], last_modified := 5 } : OutlineItem).last_modified) := by
  constructor
  · exact (c4_update_item_spec (initModel 0) ['x'] [] 1).1.mpr rfl
  · obtain ⟨m', h1, h2, h3, h4, h5, h6, h7, h8⟩ :=
      (c4_update_item_spec (initModel 0) rootKey ['N'] 5).2.2 0 (rootItem 0) rfl
    exact ⟨m', h1, h2, h6, h8 (by decide)⟩

/- ### Claim C5: getUpdatedItems -/

theorem mem_updated_filter {m : OutlineModel} {since : Nat} {u : Key} :
    (u ∈ m.updated_items.filter (fun u => match m.get_item u with
      | some it => decide (since < it.last_modified)
      | none => false)) ↔
    (u ∈ m.updated_items ∧ ∃ it, m.get_item u = some it ∧ since < it.last_modified) := by
  rw [List.mem_filter]
  cases h : m.get_item u with
  | none => simp [h]
  | some it => simp [h]

/-- Claim C5: `get_updated_items since` returns exactly the dirty keys
whose node still exists and whose `last_modified` is strictly greater
than `since`; and a second call whose `since` equals the first call's
invocation time, with no intervening mutation, returns an empty list
(assuming the clock had not run ahead of the first call). -/
theorem c5_get_updated_items_spec (m : OutlineModel) (since t1 : Nat) :
    (∀ u, u ∈ (m.get_updated_items since t1).1 ↔
      (u ∈ m.updated_items ∧
        ∃ it, m.get_item u = some it ∧ since < it.last_modified)) ∧
    (∀ t2, (∀ (j : Nat) (it : OutlineItem),
        m.nodes[j]? = some it → it.last_modified ≤ t1) →
      (((m.get_updated_items since t1).2).get_updated_items t1 t2).1 = []) := by
  constructor
  · intro u
    exact mem_updated_filter
  · intro t2 hlm
    rw [List.eq_nil_iff_forall_not_mem]
    intro u hu
    obtain ⟨-, it, hit, hlt⟩ :=
      (@mem_updated_filter ((m.get_updated_items since t1).2) t1 u).mp hu
    rw [get_item_congr rfl rfl] at hit
    obtain ⟨i, hl⟩ := get_item_eq_some.mp hit
    have := hlm i it (lookup_eq_some.mp hl).2
    omega

/-- Witness for C5 on a store with a fresh child: the key is reported
for `since = 0`, and a repeated poll at the first poll's time is empty. -/
theorem c5_get_updated_items_witness :
    ((rootKey ++ ['0', '/']) ∈
      ((applyOp (initModel 0) (Op.create rootKey ['A'] 1)).get_updated_items 0 1).1 ↔
      ((rootKey ++ ['0', '/'])
          ∈ (applyOp (initModel 0) (Op.create rootKey ['A'] 1)).updated_items ∧
        ∃ it, (applyOp (initModel 0) (Op.create rootKey ['A'] 1)).get_item
            (rootKey ++ ['0', '/']) = some it ∧ 0 < it.last_modified)) ∧
    ((((applyOp (initModel 0) (Op.create rootKey ['A'] 1)).get_updated_items 0 1).2).get_updated_items
        1 7).1 = [] :=
  ⟨(c5_get_updated_items_spec (applyOp (initModel 0) (Op.create rootKey ['A'] 1)) 0 1).1 _,
   (c5_get_updated_items_spec (applyOp (initModel 0) (Op.create rootKey ['A'] 1)) 0 1).2 7
     (lm_bound_of_all (by decide))⟩

/- ### Claim C6: the age-based sweep (corrected) -/

/-- The store after creating one child and deleting it again: the child
key stays in the dirty set while its node is gone. -/
def mC6 : OutlineModel :=
  applyOps (initModel 0)
    [Op.create rootKey ['A'] 1, Op.delete (rootKey ++ ['0', '/']) 2]

/-- Counterexample to claim C6: the dirty entry for the deleted child
references no live node and is far older than the one-hour window at
`now = 1000000`, yet the sweep performed by `get_updated_items` does not
remove it (the sweep only collects entries whose node still exists). -/
theorem c6_counterexample :
    mC6.get_item (rootKey ++ ['0', '/']) = none ∧
    (rootKey ++ ['0', '/']) ∈ mC6.updated_items ∧
    (rootKey ++ ['0', '/']) ∈ ((mC6.get_updated_items 0 1000000).2).updated_items := by
  refine ⟨by decide, by decide, by decide⟩

/-- Claim C6 as amended: the sweep runs during `get_updated_items` with
cutoff `now - 3600` and purges exactly those dirty entries whose node
still exists and has `last_modified` older than the cutoff; an entry
whose node no longer exists is never removed by the sweep. -/
theorem c6_sweep_amended (m : OutlineModel) (since t cutoff : Nat) :
    ((m.get_updated_items since t).2 = m.cleanup_old_updates (t - 3600)) ∧
    (∀ u, u ∈ (m.cleanup_old_updates cutoff).updated_items ↔
      (u ∈ m.updated_items ∧
        ¬ ∃ it, m.get_item u = some it ∧ it.last_modified < cutoff)) := by
  refine ⟨rfl, ?_⟩
  intro u
  simp only [OutlineModel.cleanup_old_updates]
  rw [List.mem_filter]
  cases h : m.get_item u with
  | none => simp [List.mem_filter, h]
  | some it =>
    by_cases hlt : it.last_modified < cutoff
    · simp [List.mem_filter, h, hlt]
    · simp [List.mem_filter, h, hlt]

/- ### Claim C10: key collision after deleting a non-last child -/

/-- The store after create A, create B, delete A: the root has one
child left (B, heap reference 2, key `/outline/0x31/`), so the next
derived child key reuses index 1. -/
def mC10 : OutlineModel :=
  applyOps (initModel 0)
    [Op.create rootKey ['A'] 1, Op.create rootKey ['B'] 2,
     Op.delete (rootKey ++ ['0', '/']) 3]

/-- Claim C10: creating under the root after deleting its first child
returns a node whose key equals the key of the distinct, still-existing
second child (heap reference 2); the mapping entry for that key is
silently overwritten by the new node (reference 3), and the root's
child sequence then holds two entries carrying the same key. -/
theorem c10_key_collision :
    dictGet mC10.all_items (rootKey ++ ['1', '/']) = some 2 ∧
    (mC10.nodes[2]?).map (fun b => b.url) = some (rootKey ++ ['1', '/']) ∧
    (mC10.create_item rootKey ['C'] 4).map (fun p => p.1.url)
      = some (rootKey ++ ['1', '/']) ∧
    (mC10.create_item rootKey ['C'] 4).map
      (fun p => dictGet p.2.all_items (rootKey ++ ['1', '/'])) = some (some 3) ∧
    (mC10.create_item rootKey ['C'] 4).map
      (fun p => (p.2.nodes[2]?).map (fun b => b.url))
      = some (some (rootKey ++ ['1', '/'])) ∧
    (mC10.create_item rootKey ['C'] 4).map
      (fun p => (p.2.nodes[3]?).map (fun c => c.url))
      = some (some (rootKey ++ ['1', '/'])) ∧
    (mC10.create_item rootKey ['C'] 4).map
      (fun p => (p.2.nodes[0]?).map (fun r => r.children))
      = some (some [2, 3]) := by
  decide

/- ### Lemmas about the key syntax: splitting, joining, digits -/

theorem splitSlash_cons_slash (cs : Key) :
    splitSlash ('/' :: cs) = [] :: splitSlash cs := by
  simp [splitSlash]

theorem splitSlash_cons_of_ne (c : Char) (cs : Key) (h : c ≠ '/') :
    splitSlash (c :: cs) = match splitSlash cs with
      | [] => [[c]]
      | p :: ps => (c :: p) :: ps := by
  simp [splitSlash, h]

theorem splitSlash_ne_nil (k : Key) : splitSlash k ≠ [] := by
  cases k with
  | nil => simp [splitSlash]
  | cons c cs =>
    by_cases h : c = '/'
    · simp [splitSlash, h]
    · rw [splitSlash_cons_of_ne c cs h]
      cases hs : splitSlash cs <;> simp

theorem two_le_splitSlash_length :
    ∀ a : Key, a.getLast? = some '/' → 2 ≤ (splitSlash a).length := by
  intro a
  induction a with
  | nil => intro h; simp at h
  | cons c a' ih =>
    intro hlast
    cases a' with
    | nil =>
      have : c = '/' := by simpa using hlast
      subst this
      simp [splitSlash]
    | cons d a'' =>
      have ha' : (d :: a'').getLast? = some '/' := by
        rwa [List.getLast?_cons_cons] at hlast
      have h2 := ih ha'
      by_cases hc : c = '/'
      · subst hc
        rw [splitSlash_cons_slash]
        simp only [List.length_cons]
        omega
      · rw [splitSlash_cons_of_ne c _ hc]
        cases hs : splitSlash (d :: a'') with
        | nil => exact absurd hs (splitSlash_ne_nil _)
        | cons p ps =>
          rw [hs] at h2
          simpa using h2

theorem splitSlash_append_of_endSlash :
    ∀ (a rest : Key), a.getLast? = some '/' →
      splitSlash (a ++ rest) = (splitSlash a).dropLast ++ splitSlash rest := by
  intro a
  induction a with
  | nil => intro rest h; simp at h
  | cons c a' ih =>
    intro rest hlast
    cases a' with
    | nil =>
      have : c = '/' := by simpa using hlast
      subst this
      rw [List.cons_append, List.nil_append, splitSlash_cons_slash,
        splitSlash_cons_slash]
      rfl
    | cons d a'' =>
      have ha' : (d :: a'').getLast? = some '/' := by
        rwa [List.getLast?_cons_cons] at hlast
      have hne := splitSlash_ne_nil (d :: a'')
      have h2 := two_le_splitSlash_length _ ha'
      by_cases hc : c = '/'
      · subst hc
        rw [List.cons_append, splitSlash_cons_slash, splitSlash_cons_slash,
          ih rest ha', List.dropLast_cons_of_ne_nil hne]
        rfl
      · obtain ⟨h0, t0, hs⟩ : ∃ h0 t0, splitSlash (d :: a'') = h0 :: t0 := by
          cases hs : splitSlash (d :: a'') with
          | nil => exact absurd hs hne
          | cons h0 t0 => exact ⟨h0, t0, rfl⟩
        have ht0 : t0 ≠ [] := by
          intro h
          rw [hs, h] at h2
          simp at h2
        have hrec := ih rest ha'
        rw [hs, List.dropLast_cons_of_ne_nil ht0] at hrec
        rw [List.cons_append, splitSlash_cons_of_ne c _ hc,
          splitSlash_cons_of_ne c _ hc, hrec, hs, List.cons_append]
        simp [List.dropLast_cons_of_ne_nil ht0]

theorem splitSlash_no_slash {s : Key} (h : ∀ c ∈ s, c ≠ '/') :
    splitSlash s = [s] := by
  induction s with
  | nil => rfl
  | cons c s' ih =>
    have hc : c ≠ '/' := h c (by simp)
    have hs' := ih (fun c hc' => h c (by simp [hc']))
    rw [splitSlash_cons_of_ne c _ hc, hs']

theorem splitSlash_seg_slash {s : Key} (h : ∀ c ∈ s, c ≠ '/') :
    splitSlash (s ++ ['/']) = [s, []] := by
  induction s with
  | nil => rfl
  | cons c s' ih =>
    have hc : c ≠ '/' := h c (by simp)
    have hs' := ih (fun c hc' => h c (by simp [hc']))
    rw [List.cons_append, splitSlash_cons_of_ne c _ hc, hs']

theorem joinSlash_splitSlash (x : Key) : joinSlash (splitSlash x) = x := by
  induction x with
  | nil => rfl
  | cons c cs ih =>
    by_cases hc : c = '/'
    · subst hc
      rw [splitSlash_cons_slash]
      cases hs : splitSlash cs with
      | nil => exact absurd hs (splitSlash_ne_nil _)
      | cons h t =>
        rw [hs] at ih
        simp only [joinSlash]
        rw [ih]
        simp
    · rw [splitSlash_cons_of_ne c _ hc]
      cases hs : splitSlash cs with
      | nil => exact absurd hs (splitSlash_ne_nil _)
      | cons h t =>
        rw [hs] at ih
        cases t with
        | nil =>
          simp only [joinSlash] at ih ⊢
          rw [ih]
        | cons y ys =>
          simp only [joinSlash] at ih ⊢
          rw [List.cons_append, ih]

theorem joinSlash_concat (L : List Key) (x : Key) (h : L ≠ []) :
    joinSlash (L ++ [x]) = joinSlash L ++ '/' :: x := by
  induction L with
  | nil => exact absurd rfl h
  | cons l0 L' ih =>
    cases L' with
    | nil => rfl
    | cons l1 L'' =>
      have hstep := ih (by simp)
      have lhs : joinSlash ((l0 :: l1 :: L'') ++ [x])
          = l0 ++ '/' :: joinSlash ((l1 :: L'') ++ [x]) := rfl
      have rhs : joinSlash (l0 :: l1 :: L'') = l0 ++ '/' :: joinSlash (l1 :: L'') := rfl
      rw [lhs, rhs, hstep]
      simp

theorem parentPathOf_append (a s : Key) (ha : a.getLast? = some '/')
    (hsf : ∀ c ∈ s, c ≠ '/') : parentPathOf (a ++ (s ++ ['/'])) = a := by
  unfold parentPathOf
  rw [splitSlash_append_of_endSlash a _ ha, splitSlash_seg_slash hsf]
  have hdd : ((splitSlash a).dropLast ++ [s, []]).dropLast.dropLast
      = (splitSlash a).dropLast := by
    rw [show (splitSlash a).dropLast ++ [s, []]
        = ((splitSlash a).dropLast ++ [s]) ++ [[]] by simp]
    rw [List.dropLast_concat, List.dropLast_concat]
  rw [hdd]
  have hsplit : splitSlash a = (splitSlash a).dropLast ++ [[]] := by
    have h0 := splitSlash_append_of_endSlash a [] ha
    simpa [splitSlash] using h0
  have h2 := two_le_splitSlash_length a ha
  have hdne : (splitSlash a).dropLast ≠ [] := by
    intro h
    rw [hsplit, h] at h2
    simp at h2
  have hj := joinSlash_concat ((splitSlash a).dropLast) [] hdne
  calc joinSlash ((splitSlash a).dropLast) ++ ['/']
      = joinSlash ((splitSlash a).dropLast ++ [[]]) := by
        rw [hj]
    _ = joinSlash (splitSlash a) := by rw [← hsplit]
    _ = a := joinSlash_splitSlash a

theorem seg_decomp_unique :
    ∀ (x y a b : Key), (∀ c ∈ x, c ≠ '/') → (∀ c ∈ y, c ≠ '/') →
      a.head? = some '/' → b.head? = some '/' → x ++ a = y ++ b → x = y ∧ a = b := by
  intro x
  induction x with
  | nil =>
    intro y a b _ hy ha _ heq
    cases y with
    | nil => exact ⟨rfl, heq⟩
    | cons c y' =>
      rw [List.nil_append] at heq
      rw [heq] at ha
      simp only [List.cons_append, List.head?_cons, Option.some.injEq] at ha
      exact absurd ha (hy c (by simp))
  | cons c x' ih =>
    intro y a b hx hy ha hb heq
    cases y with
    | nil =>
      rw [List.nil_append] at heq
      rw [← heq] at hb
      simp only [List.cons_append, List.head?_cons, Option.some.injEq] at hb
      exact absurd hb (hx c (by simp))
    | cons d y' =>
      simp only [List.cons_append, List.cons.injEq] at heq
      obtain ⟨rfl, heq'⟩ := heq
      obtain ⟨hxy, hab⟩ := ih y' a b (fun e he => hx e (by simp [he]))
        (fun e he => hy e (by simp [he])) ha hb heq'
      exact ⟨by rw [hxy], hab⟩

theorem key_seg_unique {a b x y : Key} (ha : a.getLast? = some '/')
    (hb : b.getLast? = some '/') (hx : ∀ c ∈ x, c ≠ '/') (hy : ∀ c ∈ y, c ≠ '/')
    (h : a ++ (x ++ ['/']) = b ++ (y ++ ['/'])) : a = b ∧ x = y := by
  have hr : x.reverse ++ a.reverse = y.reverse ++ b.reverse := by
    have := congrArg List.reverse h
    simp only [List.reverse_append, List.reverse_cons, List.reverse_nil,
      List.nil_append, List.append_assoc] at this
    simpa using this
  have hha : a.reverse.head? = some '/' := by
    rw [List.head?_reverse]; exact ha
  have hhb : b.reverse.head? = some '/' := by
    rw [List.head?_reverse]; exact hb
  obtain ⟨h1, h2⟩ := seg_decomp_unique x.reverse y.reverse a.reverse b.reverse
    (fun c hc => hx c (by simpa using hc)) (fun c hc => hy c (by simpa using hc))
    hha hhb hr
  constructor
  · have := congrArg List.reverse h2; simpa using this
  · have := congrArg List.reverse h1; simpa using this

/-- The decimal rendering of a natural number, as a recursion on the
value; proved equal to `Nat.toDigits 10`. -/
def digitsRep (n : Nat) : List Char :=
  if n < 10 then [Nat.digitChar n]
  else digitsRep (n / 10) ++ [Nat.digitChar (n % 10)]
decreasing_by exact Nat.div_lt_self (by omega) (by omega)

theorem toDigitsCore_eq_digitsRep :
    ∀ (fuel n : Nat) (ds : List Char), n < fuel →
      Nat.toDigitsCore 10 fuel n ds = digitsRep n ++ ds := by
  intro fuel
  induction fuel with
  | zero => intro n ds h; omega
  | succ f ih =>
    intro n ds h
    by_cases h10 : n < 10
    · have hdiv : n / 10 = 0 := Nat.div_eq_of_lt h10
      have hmod : n % 10 = n := Nat.mod_eq_of_lt h10
      simp only [Nat.toDigitsCore, hdiv, hmod, if_pos rfl]
      rw [digitsRep, if_pos h10]
      rfl
    · have hdiv : ¬ n / 10 = 0 := by
        intro h0
        have := (Nat.div_eq_zero_iff (by omega : 0 < 10)).mp h0
        omega
      simp only [Nat.toDigitsCore, if_neg hdiv]
      rw [ih (n / 10) _ (by
        have h1 : n / 10 < n := Nat.div_lt_self (by omega) (by omega)
        omega)]
      conv_rhs => rw [digitsRep, if_neg h10]
      simp

theorem natToChars_eq_digitsRep (n : Nat) : natToChars n = digitsRep n := by
  unfold natToChars Nat.toDigits
  rw [toDigitsCore_eq_digitsRep (n + 1) n [] (by omega)]
  simp

theorem digitChar_val : ∀ m : Nat, m < 10 → (Nat.digitChar m).toNat - 48 = m := by
  decide

theorem digitChar_ne_slash : ∀ m : Nat, m < 10 → Nat.digitChar m ≠ '/' := by
  decide

def digitsVal (l : List Char) : Nat :=
  l.foldl (fun a c => 10 * a + (c.toNat - 48)) 0

theorem digitsVal_digitsRep (n : Nat) : digitsVal (digitsRep n) = n := by
  induction n using Nat.strong_induction_on with
  | _ n ih =>
    by_cases h10 : n < 10
    · rw [digitsRep, if_pos h10]
      simp only [digitsVal, List.foldl_cons, List.foldl_nil]
      rw [Nat.mul_zero, Nat.zero_add, digitChar_val n h10]
    · rw [digitsRep, if_neg h10]
      have hdiv : n / 10 < n := Nat.div_lt_self (by omega) (by omega)
      have hrec := ih (n / 10) hdiv
      simp only [digitsVal, List.foldl_append, List.foldl_cons, List.foldl_nil]
      simp only [digitsVal] at hrec
      rw [hrec, digitChar_val (n % 10) (by omega)]
      omega

theorem natToChars_injective {a b : Nat} (h : natToChars a = natToChars b) :
    a = b := by
  have ha := digitsVal_digitsRep a
  have hb := digitsVal_digitsRep b
  rw [← natToChars_eq_digitsRep] at ha hb
  rw [← ha, ← hb, h]

theorem natToChars_no_slash (n : Nat) : ∀ c ∈ natToChars n, c ≠ '/' := by
  rw [natToChars_eq_digitsRep]
  induction n using Nat.strong_induction_on with
  | _ n ih =>
    by_cases h10 : n < 10
    · rw [digitsRep, if_pos h10]
      intro c hc
      rw [List.mem_singleton] at hc
      rw [hc]
      exact digitChar_ne_slash n h10
    · rw [digitsRep, if_neg h10]
      intro c hc
      rw [List.mem_append] at hc
      cases hc with
      | inl h =>
        exact ih (n / 10) (Nat.div_lt_self (by omega) (by omega)) c h
      | inr h =>
        rw [List.mem_singleton] at h
        rw [h]
        exact digitChar_ne_slash (n % 10) (by omega)

theorem natToChars_ne_nil (n : Nat) : natToChars n ≠ [] := by
  rw [natToChars_eq_digitsRep]
  by_cases h10 : n < 10
  · rw [digitsRep, if_pos h10]; simp
  · rw [digitsRep, if_neg h10]; simp

/- ### Well-formedness of a store -/

/-- Key `u` is live in `m`, mapped to heap reference `i`. -/
def live (m : OutlineModel) (u : Key) (i : Nat) : Prop :=
  dictGet m.all_items u = some i

/-- Well-formedness: the mapping and the tree structure are mutually
consistent.  These properties hold in every state the Python program
can reach in which no child-key collision has occurred. -/
structure Winv (m : OutlineModel) : Prop where
  refs : ∀ u i, live m u i → ∃ it, m.nodes[i]? = some it ∧ it.url = u
  childs : ∀ u i it, live m u i → m.nodes[i]? = some it →
    ∀ cid ∈ it.children, ∃ c, m.nodes[cid]? = some c ∧ live m c.url cid ∧
      u.length < c.url.length ∧ parentPathOf c.url = u
  nodup : ∀ u i it, live m u i → m.nodes[i]? = some it → it.children.Nodup
  pshort : ∀ u i, live m u i → u ≠ rootKey → (parentPathOf u).length < u.length
  ends : ∀ u i, live m u i → u.getLast? = some '/'
  rootlen : ∀ u i, live m u i → u ≠ rootKey → rootKey.length < u.length

/-- `Desc m i j`: heap reference `j` lies in the subtree of reference
`i`, following the children chains of `m`'s heap. -/
inductive Desc (m : OutlineModel) (i : Nat) : Nat → Prop where
  | refl : Desc m i i
  | child {j k : Nat} {it : OutlineItem} : Desc m i j → m.nodes[j]? = some it →
      k ∈ it.children → Desc m i k

/-- Key `u` is the key of some node in the subtree of reference `i`. -/
def DescKey (m : OutlineModel) (i : Nat) (u : Key) : Prop :=
  ∃ j it, Desc m i j ∧ m.nodes[j]? = some it ∧ it.url = u

theorem descKey_self {m : OutlineModel} {i : Nat} {it : OutlineItem}
    (h : m.nodes[i]? = some it) : DescKey m i it.url :=
  ⟨i, it, Desc.refl, h, rfl⟩

theorem desc_of_child {m : OutlineModel} {i cid j : Nat} {it : OutlineItem}
    (hit : m.nodes[i]? = some it) (hc : cid ∈ it.children)
    (hd : Desc m cid j) : Desc m i j := by
  induction hd with
  | refl => exact Desc.child Desc.refl hit hc
  | child hd' hjt hk ih => exact Desc.child ih hjt hk

theorem descKey_of_child {m : OutlineModel} {i cid : Nat} {it : OutlineItem}
    {u : Key} (hit : m.nodes[i]? = some it) (hc : cid ∈ it.children)
    (hd : DescKey m cid u) : DescKey m i u := by
  obtain ⟨j, jt, hdj, hjt, hju⟩ := hd
  exact ⟨j, jt, desc_of_child hit hc hdj, hjt, hju⟩

/-- On a well-formed store, every subtree member of a live node is live
and its key is at least as long as the subtree root's key. -/
theorem desc_live {m : OutlineModel} (W : Winv m) {p : Key} {i : Nat}
    (hl : live m p i) {j : Nat} (hd : Desc m i j) :
    ∃ jt, m.nodes[j]? = some jt ∧ live m jt.url j ∧ p.length ≤ jt.url.length := by
  induction hd with
  | refl =>
    obtain ⟨it, hit, hurl⟩ := W.refs p i hl
    exact ⟨it, hit, by rwa [hurl], by rw [hurl]⟩
  | child hd' hjt hk ih =>
    obtain ⟨jt, hjt', hlj, hlen⟩ := ih
    rw [hjt'] at hjt
    rw [Option.some.injEq] at hjt
    subst hjt
    obtain ⟨c, hc, hlc, hclen, -⟩ := W.childs jt.url _ jt hlj hjt' _ hk
    exact ⟨c, hc, hlc, by omega⟩

theorem descKey_length {m : OutlineModel} (W : Winv m) {p : Key} {i : Nat}
    (hl : live m p i) {u : Key} (hd : DescKey m i u) : p.length ≤ u.length := by
  obtain ⟨j, jt, hdj, hjt, hju⟩ := hd
  obtain ⟨jt', hjt', -, hlen⟩ := desc_live W hl hdj
  rw [hjt'] at hjt
  rw [Option.some.injEq] at hjt
  subst hjt
  rwa [hju] at hlen

/-- Live keys determine their heap reference. -/
theorem live_unique {m : OutlineModel} {u : Key} {i j : Nat}
    (h1 : live m u i) (h2 : live m u j) : i = j := by
  unfold live at h1 h2
  rw [h1] at h2
  rwa [Option.some.injEq] at h2

/-- On a well-formed store a reference has at most one live parent. -/
theorem unique_parent {m : OutlineModel} (W : Winv m) {u1 u2 : Key}
    {p1 p2 cid : Nat} {it1 it2 : OutlineItem}
    (hl1 : live m u1 p1) (hn1 : m.nodes[p1]? = some it1)
    (hl2 : live m u2 p2) (hn2 : m.nodes[p2]? = some it2)
    (hc1 : cid ∈ it1.children) (hc2 : cid ∈ it2.children) : p1 = p2 := by
  obtain ⟨c1, hc1', -, -, hp1⟩ := W.childs u1 p1 it1 hl1 hn1 cid hc1
  obtain ⟨c2, hc2', -, -, hp2⟩ := W.childs u2 p2 it2 hl2 hn2 cid hc2
  rw [hc1'] at hc2'
  rw [Option.some.injEq] at hc2'
  subst hc2'
  rw [hp1] at hp2
  subst hp2
  exact live_unique hl1 hl2

/-- Inversion for `Desc`. -/
theorem desc_inv {m : OutlineModel} {i j : Nat} (h : Desc m i j) :
    j = i ∨ ∃ q qt, Desc m i q ∧ m.nodes[q]? = some qt ∧ j ∈ qt.children := by
  cases h with
  | refl => exact Or.inl rfl
  | child hd hq hk => exact Or.inr ⟨_, _, hd, hq, hk⟩

/-- Distinct children of one live node do not descend into each other. -/
theorem sib_not_desc {m : OutlineModel} (W : Winv m) {path : Key}
    {id c1 c2 : Nat} {item : OutlineItem}
    (hl : live m path id) (hit : m.nodes[id]? = some item)
    (h1 : c1 ∈ item.children) (h2 : c2 ∈ item.children) (hne : c1 ≠ c2) :
    ¬ Desc m c1 c2 := by
  intro hd
  obtain ⟨b1, hb1, hlb1, hlen1, -⟩ := W.childs path id item hl hit c1 h1
  rcases desc_inv hd with rfl | ⟨q, qt, hdq, hq, hc2q⟩
  · exact hne rfl
  · obtain ⟨qt', hq', hlq, -⟩ := desc_live W hlb1 hdq
    rw [hq'] at hq
    rw [Option.some.injEq] at hq
    subst hq
    have heq : q = id := unique_parent W hlq hq' hl hit hc2q h2
    rw [heq] at hdq
    obtain ⟨idt, hidt, -, hlen3⟩ := desc_live W hlb1 hdq
    obtain ⟨it0, hit0, hurl0⟩ := W.refs path id hl
    rw [hit0] at hidt
    rw [Option.some.injEq] at hidt
    subst hidt
    rw [hurl0] at hlen3
    omega

/-- Subtrees of distinct children of one live node are disjoint. -/
theorem sib_disjoint {m : OutlineModel} (W : Winv m) {path : Key}
    {id c1 c2 : Nat} {item : OutlineItem}
    (hl : live m path id) (hit : m.nodes[id]? = some item)
    (h1 : c1 ∈ item.children) (h2 : c2 ∈ item.children) (hne : c1 ≠ c2) :
    ∀ j, Desc m c2 j → ¬ Desc m c1 j := by
  obtain ⟨b1, hb1, hlb1, -, -⟩ := W.childs path id item hl hit c1 h1
  obtain ⟨b2, hb2, hlb2, -, -⟩ := W.childs path id item hl hit c2 h2
  intro j hd2
  induction hd2 with
  | refl => exact sib_not_desc W hl hit h1 h2 hne
  | child hd2' hq hk ih =>
    intro hd1
    rcases desc_inv hd1 with rfl | ⟨q', q't, hdq', hq', hkq'⟩
    · exact sib_not_desc W hl hit h2 h1 (Ne.symm hne) (Desc.child hd2' hq hk)
    · obtain ⟨qt0, hq0, hlq0, -⟩ := desc_live W hlb2 hd2'
      obtain ⟨q't0, hq'0, hlq'0, -⟩ := desc_live W hlb1 hdq'
      rw [hq0] at hq
      rw [Option.some.injEq] at hq
      subst hq
      rw [hq'0] at hq'
      rw [Option.some.injEq] at hq'
      subst hq'
      have := unique_parent W hlq'0 hq'0 hlq0 hq0 hkq' hk
      subst this
      exact ih hdq'

/- ### Unconditional frame properties of deleteFuel -/

/-- What any run of `deleteFuel` (at time `t`) can do to the store:
the heap keeps its length, urls and texts; children lists only lose
elements; `last_modified` is either kept or set to `t`; the mapping
only loses entries; the dirty set only grows. -/
structure Shrinks (t : Nat) (m m' : OutlineModel) : Prop where
  len : m'.nodes.length = m.nodes.length
  urls : ∀ (j : Nat) (it : OutlineItem), m.nodes[j]? = some it →
    ∃ it' : OutlineItem, m'.nodes[j]? = some it' ∧
      it'.url = it.url ∧ it'.children.Sublist it.children ∧
      (it'.last_modified = it.last_modified ∨ it'.last_modified = t)
  dictOpt : ∀ u, dictGet m'.all_items u = dictGet m.all_items u ∨
    dictGet m'.all_items u = none
  dictSub : m'.all_items.Sublist m.all_items
  dirty : ∀ u ∈ m.updated_items, u ∈ m'.updated_items

theorem shrinks_refl (t : Nat) (m : OutlineModel) : Shrinks t m m where
  len := rfl
  urls := fun j it h => ⟨it, h, rfl, List.Sublist.refl _, Or.inl rfl⟩
  dictOpt := fun u => Or.inl rfl
  dictSub := List.Sublist.refl _
  dirty := fun u h => h

theorem shrinks_trans {t : Nat} {m1 m2 m3 : OutlineModel}
    (h1 : Shrinks t m1 m2) (h2 : Shrinks t m2 m3) : Shrinks t m1 m3 where
  len := h2.len.trans h1.len
  urls := fun j it h => by
    obtain ⟨it', h', hu', hc', hl'⟩ := h1.urls j it h
    obtain ⟨it'', h'', hu'', hc'', hl''⟩ := h2.urls j it' h'
    refine ⟨it'', h'', hu''.trans hu', hc''.trans hc', ?_⟩
    rcases hl'' with h | h
    · rw [h]; exact hl'
    · exact Or.inr h
  dictOpt := fun u => by
    rcases h2.dictOpt u with h | h
    · rw [h]; exact h1.dictOpt u
    · exact Or.inr h
  dictSub := h2.dictSub.trans h1.dictSub
  dirty := fun u h => h2.dirty u (h1.dirty u h)

theorem shrinks_foldl {t : Nat} (f : OutlineModel → Key → OutlineModel)
    (hf : ∀ m u, Shrinks t m (f m u)) :
    ∀ (l : List Key) (m : OutlineModel), Shrinks t m (l.foldl f m) := by
  intro l
  induction l with
  | nil => intro m; exact shrinks_refl t m
  | cons u l' ih =>
    intro m
    exact shrinks_trans (hf m u) (ih (f m u))

theorem shrinks_removeStep {m1 : OutlineModel} {pp : Key} {id t : Nat} :
    Shrinks t m1 (match m1.lookup pp with
      | none => m1
      | some (pid, pit) =>
        { m1 with nodes := m1.nodes.set pid (pit.remove_child id t).1 }) := by
  cases hl : m1.lookup pp with
  | none => exact shrinks_refl t m1
  | some pr =>
    obtain ⟨pid, pit⟩ := pr
    have hnode := (lookup_eq_some.mp hl).2
    have hpid : pid < m1.nodes.length := (List.getElem?_eq_some.mp hnode).1
    refine ⟨by simp, ?_, fun u => Or.inl rfl, List.Sublist.refl _, fun u h => h⟩
    intro j it hj
    by_cases hji : j = pid
    · subst hji
      rw [hj] at hnode
      rw [Option.some.injEq] at hnode
      subst hnode
      refine ⟨(it.remove_child id t).1, by simp [List.getElem?_set, hpid],
        ?_, ?_, ?_⟩
      · unfold OutlineItem.remove_child
        split <;> rfl
      · unfold OutlineItem.remove_child
        split
        · exact List.erase_sublist _ _
        · exact List.Sublist.refl _
      · unfold OutlineItem.remove_child
        split
        · exact Or.inr rfl
        · exact Or.inl rfl
    · exact ⟨it, by rw [List.getElem?_set_ne (Ne.symm hji)]; exact hj, rfl,
        List.Sublist.refl _, Or.inl rfl⟩

theorem shrinks_finalStep {m2 : OutlineModel} {path pp : Key} {t : Nat} :
    Shrinks t m2 { m2 with all_items := dictRemove m2.all_items path,
                           updated_items := setAdd m2.updated_items pp } := by
  refine ⟨rfl, fun j it h => ⟨it, h, rfl, List.Sublist.refl _, Or.inl rfl⟩,
    ?_, dictRemove_sublist _ _, fun u h => mem_setAdd_of_mem h⟩
  intro u
  rw [dictGet_remove]
  by_cases h : u = path
  · rw [if_pos h]; exact Or.inr rfl
  · rw [if_neg h]; exact Or.inl rfl

theorem shrinks_deleteFuel (t : Nat) :
    ∀ (fuel : Nat) (m : OutlineModel) (path : Key),
      Shrinks t m (deleteFuel fuel m path t).2 := by
  intro fuel
  induction fuel with
  | zero => intro m path; exact shrinks_refl t m
  | succ f ih =>
    intro m path
    rw [deleteFuel]
    by_cases hroot : path = rootKey
    · rw [if_pos hroot]; exact shrinks_refl t m
    · rw [if_neg hroot]
      cases hl : m.lookup path with
      | none => exact shrinks_refl t m
      | some pr =>
        obtain ⟨id, item⟩ := pr
        simp only
        refine shrinks_trans (shrinks_foldl _ (fun m' u => ih m' u) _ m)
          (shrinks_trans shrinks_removeStep shrinks_finalStep)

/- ### The recursion measure for delete -/

/-- Number of mapping entries whose key is longer than `path`; bounds
the recursion depth of `delete_item` below `path`. -/
def keyMeasure (m : OutlineModel) (path : Key) : Nat :=
  (m.all_items.filter (fun p => decide (path.length < p.1.length))).length

theorem keyMeasure_le_of_sublist {m m' : OutlineModel} (path : Key)
    (h : m'.all_items.Sublist m.all_items) :
    keyMeasure m' path ≤ keyMeasure m path :=
  List.Sublist.length_le (List.Sublist.filter _ h)

theorem keyMeasure_le_length (m : OutlineModel) (path : Key) :
    keyMeasure m path ≤ m.all_items.length :=
  List.length_filter_le _ _

theorem keyMeasure_lt_of_longer {m : OutlineModel} {path c : Key} {cid : Nat}
    (hlc : live m c cid) (hlen : path.length < c.length) :
    keyMeasure m c < keyMeasure m path := by
  have hmem : (c, cid) ∈ m.all_items := dictGet_mem hlc
  have hq : ∀ p : Key × Nat, decide (c.length < p.1.length) = true →
      decide (path.length < p.1.length) = true := by
    intro p hp
    rw [decide_eq_true_iff] at hp ⊢
    omega
  have hfe : m.all_items.filter (fun p => decide (c.length < p.1.length))
      = (m.all_items.filter (fun p => decide (path.length < p.1.length))).filter
          (fun p => decide (c.length < p.1.length)) := by
    rw [List.filter_filter]
    apply List.filter_congr
    intro p hp
    by_cases h : decide (c.length < p.1.length) = true
    · rw [h, hq p h]
      rfl
    · rw [Bool.not_eq_true] at h
      rw [h]
      rfl
  unfold keyMeasure
  rw [hfe]
  rw [List.length_filter_lt_length_iff_exists]
  refine ⟨(c, cid), ?_, ?_⟩
  · rw [List.mem_filter]
    exact ⟨hmem, by simpa using hlen⟩
  · simp

/- ### Transfer of the descendant relation across delete steps -/

theorem exists_node_of_lt {l : List OutlineItem} {j : Nat} (h : j < l.length) :
    ∃ it, l[j]? = some it := ⟨l[j], List.getElem?_eq_getElem h⟩

/-- Chains in a shrunken store are chains of the original store. -/
theorem desc_of_shrinks {t : Nat} {m mk : OutlineModel} (S : Shrinks t m mk)
    {c j : Nat} (hd : Desc mk c j) : Desc m c j := by
  induction hd with
  | refl => exact Desc.refl
  | child hd' hjt hk ih =>
    rename_i j' k' it'
    have hlt : j' < m.nodes.length := by
      have h1 := (List.getElem?_eq_some.mp hjt).1
      rw [S.len] at h1
      exact h1
    obtain ⟨itm, hitm⟩ := exists_node_of_lt hlt
    obtain ⟨it2, hit2, -, hc2, -⟩ := S.urls j' itm hitm
    rw [hjt] at hit2
    rw [Option.some.injEq] at hit2
    subst hit2
    exact Desc.child ih hitm (hc2.subset hk)

/-- Subtree keys of a shrunken store are subtree keys of the original. -/
theorem descKey_of_shrinks {t : Nat} {m mk : OutlineModel} (S : Shrinks t m mk)
    {c : Nat} {u : Key} (hd : DescKey mk c u) : DescKey m c u := by
  obtain ⟨j, jt, hdj, hjt, hju⟩ := hd
  have hlt : j < m.nodes.length := by
    have h1 := (List.getElem?_eq_some.mp hjt).1
    rw [S.len] at h1
    exact h1
  obtain ⟨itm, hitm⟩ := exists_node_of_lt hlt
  obtain ⟨it2, hit2, hu2, -, -⟩ := S.urls j itm hitm
  rw [hjt] at hit2
  rw [Option.some.injEq] at hit2
  subst hit2
  exact ⟨j, itm, desc_of_shrinks S hdj, hitm, by rw [← hju, hu2]⟩

/-- If all nodes of a subtree are preserved, the chains and keys of
that subtree transfer forward. -/
theorem desc_transfer_of_nodes {m mk : OutlineModel} {c : Nat}
    (hc : ∀ (j : Nat) (it : OutlineItem), m.nodes[j]? = some it →
      DescKey m c it.url → mk.nodes[j]? = some it) :
    ∀ {j : Nat}, Desc m c j → Desc mk c j ∧
      (∀ jt, m.nodes[j]? = some jt → mk.nodes[j]? = some jt) := by
  intro j hd
  induction hd with
  | refl => exact ⟨Desc.refl, fun jt hjt => hc _ _ hjt (descKey_self hjt)⟩
  | child hd' hjt hk ih =>
    obtain ⟨ihd, ihn⟩ := ih
    have hmk := ihn _ hjt
    refine ⟨Desc.child ihd hmk hk, ?_⟩
    intro kt hkt
    exact hc _ _ hkt ⟨_, kt, Desc.child hd' hjt hk, hkt, rfl⟩

theorem descKey_transfer_of_nodes {m mk : OutlineModel} {c : Nat} {u : Key}
    (hc : ∀ (j : Nat) (it : OutlineItem), m.nodes[j]? = some it →
      DescKey m c it.url → mk.nodes[j]? = some it)
    (hd : DescKey m c u) : DescKey mk c u := by
  obtain ⟨j, jt, hdj, hjt, hju⟩ := hd
  obtain ⟨h1, h2⟩ := desc_transfer_of_nodes hc hdj
  exact ⟨j, jt, h1, h2 jt hjt, hju⟩

/- ### The main specification of delete on well-formed stores -/

/-- Postconditions of a successful `deleteFuel` run on a well-formed
store: the result is `true`; exactly the keys of the subtree disappear
from the mapping; nodes outside the subtree other than the parent are
untouched; the parent node has the deleted reference removed from its
children (bumping its `last_modified`); the parent key is marked dirty;
and well-formedness is preserved. -/
structure DelPost (m : OutlineModel) (path : Key) (id : Nat) (t : Nat)
    (r : Bool × OutlineModel) : Prop where
  ok : r.1 = true
  removed : ∀ u, DescKey m id u → dictGet r.2.all_items u = none
  frame : ∀ u, ¬ DescKey m id u →
    dictGet r.2.all_items u = dictGet m.all_items u
  nodesFrame : ∀ (j : Nat) (it : OutlineItem), m.nodes[j]? = some it →
    it.url ≠ parentPathOf path → ¬ DescKey m id it.url → r.2.nodes[j]? = some it
  parentNode : ∀ (pid : Nat) (pit : OutlineItem),
    live m (parentPathOf path) pid → m.nodes[pid]? = some pit →
    r.2.nodes[pid]? = some (pit.remove_child id t).1
  dirtyParent : parentPathOf path ∈ r.2.updated_items
  winv : Winv r.2

/-- The child-deletion loop of `delete_item`, as a function of the
remaining snapshot of children. -/
def foldDelete (f t : Nat) (m : OutlineModel) (cs : List Nat)
    (mk : OutlineModel) : OutlineModel :=
  (cs.filterMap (fun cid => (m.nodes[cid]?).map (fun c => c.url))).foldl
    (fun acc u => (deleteFuel f acc u t).2) mk

/-- Folding the recursive deletes over a duplicate-free selection of
the children of a live node removes exactly the keys of their subtrees
and preserves well-formedness.  `ihf` is the induction hypothesis of
the fuel recursion. -/
theorem delete_children_fold {t f : Nat}
    (ihf : ∀ (m : OutlineModel) (path : Key) (id : Nat) (item : OutlineItem),
      Winv m → live m path id → m.nodes[id]? = some item → path ≠ rootKey →
      keyMeasure m path < f →
      DelPost m path id t (deleteFuel f m path t))
    {m : OutlineModel} (W : Winv m) {path : Key} {id : Nat} {item : OutlineItem}
    (hl : live m path id) (hit : m.nodes[id]? = some item) (hroot : path ≠ rootKey)
    (hfuel : keyMeasure m path ≤ f) :
    ∀ (cs : List Nat), cs.Nodup → (∀ c ∈ cs, c ∈ item.children) →
    ∀ (mk : OutlineModel), Winv mk → Shrinks t m mk →
    (∀ c ∈ cs, ∀ u, DescKey m c u →
      dictGet mk.all_items u = dictGet m.all_items u) →
    (∀ c ∈ cs, ∀ (j : Nat) (it : OutlineItem), m.nodes[j]? = some it →
      DescKey m c it.url → mk.nodes[j]? = some it) →
    Winv (foldDelete f t m cs mk) ∧
    Shrinks t mk (foldDelete f t m cs mk) ∧
    (∀ c ∈ cs, ∀ u, DescKey m c u →
      dictGet (foldDelete f t m cs mk).all_items u = none) ∧
    (∀ u, (∀ c ∈ cs, ¬ DescKey m c u) →
      dictGet (foldDelete f t m cs mk).all_items u = dictGet mk.all_items u) ∧
    (∀ (j : Nat) (it : OutlineItem), mk.nodes[j]? = some it → it.url ≠ path →
      (∀ c ∈ cs, ¬ DescKey m c it.url) →
      (foldDelete f t m cs mk).nodes[j]? = some it) := by
  intro cs
  induction cs with
  | nil =>
    intro _ _ mk Wk Sk _ _
    exact ⟨Wk, shrinks_refl t mk, by simp, fun u _ => rfl, fun j it h _ _ => h⟩
  | cons c0 cs' ih =>
    intro hnd hsub mk Wk Sk present nodesP
    obtain ⟨hc0notin, hnd'⟩ := List.nodup_cons.mp hnd
    have hc0mem : c0 ∈ item.children := hsub c0 (List.mem_cons_self c0 cs')
    obtain ⟨c0n, hc0n, hlc0, hlen0, hpp0⟩ := W.childs path id item hl hit c0 hc0mem
    have hfold : foldDelete f t m (c0 :: cs') mk
        = foldDelete f t m cs' ((deleteFuel f mk c0n.url t).2) := by
      simp only [foldDelete, List.filterMap_cons, hc0n, Option.map_some',
        List.foldl_cons]
    have hchild : ∀ c ∈ cs', ∃ cn, m.nodes[c]? = some cn ∧ live m cn.url c ∧
        path.length < cn.url.length := by
      intro c hc
      obtain ⟨cn, h1, h2, h3, -⟩ := W.childs path id item hl hit c
        (hsub c (List.mem_cons_of_mem c0 hc))
      exact ⟨cn, h1, h2, h3⟩
    have hdictc0 : dictGet mk.all_items c0n.url = some c0 := by
      rw [present c0 (List.mem_cons_self c0 cs') c0n.url (descKey_self hc0n)]
      exact hlc0
    have hnodec0 : mk.nodes[c0]? = some c0n :=
      nodesP c0 (List.mem_cons_self c0 cs') c0 c0n hc0n (descKey_self hc0n)
    have hrootc0 : c0n.url ≠ rootKey := by
      intro h
      have h1 := W.rootlen path id hl hroot
      rw [h] at hlen0
      omega
    have hmeasc0 : keyMeasure mk c0n.url < f := by
      have h1 : keyMeasure mk c0n.url ≤ keyMeasure m c0n.url :=
        keyMeasure_le_of_sublist _ Sk.dictSub
      have h2 : keyMeasure m c0n.url < keyMeasure m path :=
        keyMeasure_lt_of_longer hlc0 hlen0
      omega
    have hD := ihf mk c0n.url c0 c0n Wk hdictc0 hnodec0 hrootc0 hmeasc0
    have S01 : Shrinks t mk (deleteFuel f mk c0n.url t).2 :=
      shrinks_deleteFuel t f mk c0n.url
    have hnodesP0 := nodesP c0 (List.mem_cons_self c0 cs')
    have htrans_bwd : ∀ u, DescKey mk c0 u → DescKey m c0 u := fun u hu =>
      descKey_of_shrinks Sk hu
    have htrans_fwd : ∀ u, DescKey m c0 u → DescKey mk c0 u := fun u hu =>
      descKey_transfer_of_nodes hnodesP0 hu
    have hdisj : ∀ c ∈ cs', ∀ u, DescKey m c u → ¬ DescKey m c0 u := by
      intro c hc u hcu hc0u
      have hnec : c0 ≠ c := fun h => hc0notin (h ▸ hc)
      obtain ⟨cn, hcn, hlcn, -⟩ := hchild c hc
      obtain ⟨j1, jt1, hd1, hjt1, hju1⟩ := hc0u
      obtain ⟨j2, jt2, hd2, hjt2, hju2⟩ := hcu
      obtain ⟨jt1', hjt1', hlj1, -⟩ := desc_live W hlc0 hd1
      rw [hjt1'] at hjt1
      rw [Option.some.injEq] at hjt1
      subst hjt1
      obtain ⟨jt2', hjt2', hlj2, -⟩ := desc_live W hlcn hd2
      rw [hjt2'] at hjt2
      rw [Option.some.injEq] at hjt2
      subst hjt2
      rw [hju1] at hlj1
      rw [hju2] at hlj2
      have hj12 : j1 = j2 := live_unique hlj1 hlj2
      subst hj12
      exact sib_disjoint W hl hit hc0mem (hsub c (List.mem_cons_of_mem c0 hc))
        hnec j1 hd2 hd1
    have present1 : ∀ c ∈ cs', ∀ u, DescKey m c u →
        dictGet ((deleteFuel f mk c0n.url t).2).all_items u
          = dictGet m.all_items u := by
      intro c hc u hu
      have h1 : ¬ DescKey mk c0 u := fun h => hdisj c hc u hu (htrans_bwd u h)
      rw [hD.frame u h1]
      exact present c (List.mem_cons_of_mem c0 hc) u hu
    have nodesP1 : ∀ c ∈ cs', ∀ (j : Nat) (it : OutlineItem),
        m.nodes[j]? = some it → DescKey m c it.url →
        ((deleteFuel f mk c0n.url t).2).nodes[j]? = some it := by
      intro c hc j it hjt hdu
      have hmk := nodesP c (List.mem_cons_of_mem c0 hc) j it hjt hdu
      obtain ⟨cn, hcn, hlcn, hlencn⟩ := hchild c hc
      apply hD.nodesFrame j it hmk
      · rw [hpp0]
        intro h
        have hlen := descKey_length W hlcn hdu
        rw [h] at hlen
        omega
      · intro h
        exact hdisj c hc it.url hdu (htrans_bwd _ h)
    obtain ⟨Wf, Sf, remF, frameF, nodesFF⟩ := ih hnd'
      (fun c hc => hsub c (List.mem_cons_of_mem c0 hc))
      ((deleteFuel f mk c0n.url t).2) hD.winv (shrinks_trans Sk S01)
      present1 nodesP1
    rw [hfold]
    refine ⟨Wf, shrinks_trans S01 Sf, ?_, ?_, ?_⟩
    · intro c hc u hu
      rcases List.mem_cons.mp hc with rfl | hc'
      · have h1 : dictGet ((deleteFuel f mk c0n.url t).2).all_items u = none :=
          hD.removed u (htrans_fwd u hu)
        rcases Sf.dictOpt u with h | h
        · rw [h, h1]
        · exact h
      · exact remF c hc' u hu
    · intro u hnone
      have h0 : ¬ DescKey m c0 u := hnone c0 (List.mem_cons_self c0 cs')
      rw [frameF u (fun c hc => hnone c (List.mem_cons_of_mem c0 hc))]
      exact hD.frame u (fun h => h0 (htrans_bwd u h))
    · intro j it hjt hne hnone
      have h1 : ((deleteFuel f mk c0n.url t).2).nodes[j]? = some it := by
        apply hD.nodesFrame j it hjt
        · rw [hpp0]; exact hne
        · exact fun h => hnone c0 (List.mem_cons_self c0 cs') (htrans_bwd _ h)
      exact nodesFF j it h1 hne (fun c hc => hnone c (List.mem_cons_of_mem c0 hc))

/-- The parent-detach step of `delete_item` (remove_child on the node
the parent key resolves to, if any). -/
def removeParentStep (m1 : OutlineModel) (pp : Key) (id t : Nat) : OutlineModel :=
  match m1.lookup pp with
  | none => m1
  | some (pid, pit) =>
    { m1 with nodes := m1.nodes.set pid (pit.remove_child id t).1 }

/-- The final step of `delete_item`: drop the mapping entry and mark
the parent key dirty. -/
def finalizeDelete (m2 : OutlineModel) (path pp : Key) : OutlineModel :=
  { m2 with all_items := dictRemove m2.all_items path,
            updated_items := setAdd m2.updated_items pp }

theorem deleteFuel_succ_eq {f : Nat} {m : OutlineModel} {path : Key} {t : Nat}
    {id : Nat} {item : OutlineItem} (hroot : path ≠ rootKey)
    (hlook : m.lookup path = some (id, item)) :
    deleteFuel (f+1) m path t =
      (true, finalizeDelete
        (removeParentStep (foldDelete f t m item.children m)
          (parentPathOf path) id t)
        path (parentPathOf path)) := by
  rw [deleteFuel, if_neg hroot, hlook]
  rfl

theorem removeParentStep_all_items (m1 : OutlineModel) (pp : Key) (id t : Nat) :
    (removeParentStep m1 pp id t).all_items = m1.all_items := by
  unfold removeParentStep
  split <;> rfl

theorem removeParentStep_updated (m1 : OutlineModel) (pp : Key) (id t : Nat) :
    (removeParentStep m1 pp id t).updated_items = m1.updated_items := by
  unfold removeParentStep
  split <;> rfl

theorem removeParentStep_of_none {m1 : OutlineModel} {pp : Key} {id t : Nat}
    (h : m1.lookup pp = none) : removeParentStep m1 pp id t = m1 := by
  unfold removeParentStep
  rw [h]

theorem removeParentStep_of_some {m1 : OutlineModel} {pp : Key} {id t : Nat}
    {pid : Nat} {pit : OutlineItem} (h : m1.lookup pp = some (pid, pit)) :
    removeParentStep m1 pp id t
      = { m1 with nodes := m1.nodes.set pid (pit.remove_child id t).1 } := by
  unfold removeParentStep
  rw [h]

theorem getElem?_set_self {l : List OutlineItem} {i : Nat} {a : OutlineItem}
    (h : i < l.length) : (l.set i a)[i]? = some a := by
  simp [List.getElem?_set, h]

theorem remove_child_url (pit : OutlineItem) (id t : Nat) :
    ((pit.remove_child id t).1).url = pit.url := by
  unfold OutlineItem.remove_child
  split <;> rfl

theorem remove_child_children_subset (pit : OutlineItem) (id t : Nat) :
    ((pit.remove_child id t).1).children ⊆ pit.children := by
  unfold OutlineItem.remove_child
  split
  · exact List.erase_subset _ _
  · exact fun x h => h

theorem remove_child_nodup {pit : OutlineItem} (id t : Nat)
    (h : pit.children.Nodup) : ((pit.remove_child id t).1).children.Nodup := by
  unfold OutlineItem.remove_child
  split
  · exact List.Nodup.erase id h
  · exact h

theorem remove_child_not_mem {pit : OutlineItem} {id : Nat} (t : Nat)
    (h : pit.children.Nodup) : id ∉ ((pit.remove_child id t).1).children := by
  unfold OutlineItem.remove_child
  split
  · exact (List.Nodup.mem_erase_iff h).not.mpr (by simp)
  · next hmem => exact hmem

/-- `removeParentStep` preserves well-formedness. -/
theorem winv_removeParentStep {m1 : OutlineModel} (W1 : Winv m1)
    (pp : Key) (id t : Nat) : Winv (removeParentStep m1 pp id t) := by
  cases hl : m1.lookup pp with
  | none => rw [removeParentStep_of_none hl]; exact W1
  | some pr =>
    obtain ⟨pid, pit⟩ := pr
    rw [removeParentStep_of_some hl]
    obtain ⟨hdict, hnode⟩ := lookup_eq_some.mp hl
    have hpid : pid < m1.nodes.length := (List.getElem?_eq_some.mp hnode).1
    set newit := (pit.remove_child id t).1 with hnewit
    set m2 : OutlineModel := { m1 with nodes := m1.nodes.set pid newit } with hm2
    have hget : ∀ (j : Nat), (m2.nodes[j]? = m1.nodes[j]?) ∨
        (j = pid ∧ m2.nodes[j]? = some newit ∧ m1.nodes[j]? = some pit) := by
      intro j
      by_cases hji : j = pid
      · subst hji
        exact Or.inr ⟨rfl, getElem?_set_self hpid, hnode⟩
      · exact Or.inl (List.getElem?_set_ne (Ne.symm hji))
    have hlive : ∀ u i, live m2 u i ↔ live m1 u i := fun u i => Iff.rfl
    refine ⟨?_, ?_, ?_, W1.pshort, W1.ends, W1.rootlen⟩
    · intro u i hli
      obtain ⟨it, hit, hu⟩ := W1.refs u i hli
      rcases hget i with h | ⟨rfl, h2, h1⟩
      · exact ⟨it, by rw [h]; exact hit, hu⟩
      · rw [h1] at hit
        rw [Option.some.injEq] at hit
        subst hit
        exact ⟨newit, h2, by rw [remove_child_url, hu]⟩
    · intro u i it hli hit2 cid hcid
      have htransport : ∀ (c : OutlineItem), m1.nodes[cid]? = some c →
          ∃ c', m2.nodes[cid]? = some c' ∧ c'.url = c.url := by
        intro c hc
        rcases hget cid with h | ⟨rfl, h2, h1⟩
        · exact ⟨c, by rw [h]; exact hc, rfl⟩
        · rw [h1] at hc
          rw [Option.some.injEq] at hc
          subst hc
          exact ⟨newit, h2, remove_child_url _ _ _⟩
      rcases hget i with h | ⟨rfl, h2, h1⟩
      · rw [h] at hit2
        obtain ⟨c, hc, hlc, hlen, hppc⟩ := W1.childs u i it hli hit2 cid hcid
        obtain ⟨c', hc', hcu⟩ := htransport c hc
        refine ⟨c', hc', ?_, ?_, ?_⟩
        · rw [hcu]; exact hlc
        · rw [hcu]; exact hlen
        · rw [hcu]; exact hppc
      · rw [h2] at hit2
        rw [Option.some.injEq] at hit2
        subst hit2
        have hcid' : cid ∈ pit.children := remove_child_children_subset _ _ _ hcid
        obtain ⟨c, hc, hlc, hlen, hppc⟩ := W1.childs u i pit hli h1 cid hcid'
        obtain ⟨c', hc', hcu⟩ := htransport c hc
        refine ⟨c', hc', ?_, ?_, ?_⟩
        · rw [hcu]; exact hlc
        · rw [hcu]; exact hlen
        · rw [hcu]; exact hppc
    · intro u i it hli hit2
      rcases hget i with h | ⟨rfl, h2, h1⟩
      · rw [h] at hit2
        exact W1.nodup u i it hli hit2
      · rw [h2] at hit2
        rw [Option.some.injEq] at hit2
        subst hit2
        exact remove_child_nodup id t (W1.nodup u i pit hli h1)

/-- `finalizeDelete` preserves well-formedness, provided no surviving
live node still holds the deleted reference among its children. -/
theorem winv_finalizeDelete {m2 : OutlineModel} {path pp : Key} {id : Nat}
    (W2 : Winv m2) (hid : dictGet m2.all_items path = some id)
    (hnochild : ∀ u i it, live m2 u i → u ≠ path → m2.nodes[i]? = some it →
      id ∉ it.children) :
    Winv (finalizeDelete m2 path pp) := by
  have hlive : ∀ u i, live (finalizeDelete m2 path pp) u i ↔
      (u ≠ path ∧ live m2 u i) := by
    intro u i
    unfold live
    rw [show (finalizeDelete m2 path pp).all_items
        = dictRemove m2.all_items path from rfl]
    rw [dictGet_remove]
    by_cases h : u = path
    · simp [h]
    · simp [h]
  have hnodes : (finalizeDelete m2 path pp).nodes = m2.nodes := rfl
  refine ⟨?_, ?_, ?_, ?_, ?_, ?_⟩
  · intro u i hli
    obtain ⟨-, hli2⟩ := (hlive u i).mp hli
    obtain ⟨it, hit, hu⟩ := W2.refs u i hli2
    exact ⟨it, by rw [hnodes]; exact hit, hu⟩
  · intro u i it hli hit cid hcid
    obtain ⟨hne, hli2⟩ := (hlive u i).mp hli
    rw [hnodes] at hit
    obtain ⟨c, hc, hlc, hlen, hppc⟩ := W2.childs u i it hli2 hit cid hcid
    have hcne : c.url ≠ path := by
      intro h
      rw [h] at hlc
      have hcid_id : cid = id := by
        have h2 := hlc
        unfold live at h2
        rw [hid] at h2
        rw [Option.some.injEq] at h2
        exact h2.symm
      rw [hcid_id] at hcid
      exact hnochild u i it hli2 hne hit hcid
    refine ⟨c, by rw [hnodes]; exact hc, (hlive c.url cid).mpr ⟨hcne, hlc⟩,
      hlen, hppc⟩
  · intro u i it hli hit
    obtain ⟨-, hli2⟩ := (hlive u i).mp hli
    rw [hnodes] at hit
    exact W2.nodup u i it hli2 hit
  · intro u i hli hne'
    exact W2.pshort u i ((hlive u i).mp hli).2 hne'
  · intro u i hli
    exact W2.ends u i ((hlive u i).mp hli).2
  · intro u i hli hne'
    exact W2.rootlen u i ((hlive u i).mp hli).2 hne'

theorem desc_split {m : OutlineModel} {id j : Nat} {it : OutlineItem}
    (hit : m.nodes[id]? = some it) (hd : Desc m id j) :
    j = id ∨ ∃ c ∈ it.children, Desc m c j := by
  induction hd with
  | refl => exact Or.inl rfl
  | child hd' hq hk ih =>
    rcases ih with rfl | ⟨c, hc, hdc⟩
    · rw [hit] at hq
      rw [Option.some.injEq] at hq
      subst hq
      exact Or.inr ⟨_, hk, Desc.refl⟩
    · exact Or.inr ⟨c, hc, Desc.child hdc hq hk⟩

/-- The main theorem about `deleteFuel` on well-formed stores. -/
theorem deleteFuel_del (t : Nat) :
    ∀ (fuel : Nat) (m : OutlineModel) (path : Key) (id : Nat)
      (item : OutlineItem),
      Winv m → live m path id → m.nodes[id]? = some item → path ≠ rootKey →
      keyMeasure m path < fuel →
      DelPost m path id t (deleteFuel fuel m path t) := by
  intro fuel
  induction fuel with
  | zero => intro m path id item _ _ _ _ h; omega
  | succ f ihf =>
    intro m path id item W hl hit hroot hfuel
    have hlook : m.lookup path = some (id, item) := lookup_eq_some.mpr ⟨hl, hit⟩
    have hitem_url : item.url = path := by
      obtain ⟨it0, hit0, hu0⟩ := W.refs path id hl
      rw [hit] at hit0
      rw [Option.some.injEq] at hit0
      rw [← hit0] at hu0
      exact hu0
    rw [deleteFuel_succ_eq hroot hlook]
    set pp := parentPathOf path with hppdef
    set m1 := foldDelete f t m item.children m with hm1def
    set m2 := removeParentStep m1 pp id t with hm2def
    have hppne : pp ≠ path := by
      have h1 := W.pshort path id hl hroot
      intro h
      rw [hppdef] at h
      rw [h] at h1
      omega
    have hchild_len : ∀ c ∈ item.children, ∀ u, DescKey m c u →
        path.length < u.length := by
      intro c hc u hu
      obtain ⟨cn, hcn, hlcn, hlencn, -⟩ := W.childs path id item hl hit c hc
      have := descKey_length W hlcn hu
      omega
    have K1 : ∀ c ∈ item.children, ¬ DescKey m c path := by
      intro c hc h
      have := hchild_len c hc path h
      omega
    have K3 : ∀ c ∈ item.children, ¬ DescKey m c pp := by
      intro c hc h
      have h1 := hchild_len c hc pp h
      have h2 := W.pshort path id hl hroot
      rw [hppdef] at h1
      omega
    have hnodup := W.nodup path id item hl hit
    obtain ⟨W1, S1, rem1, frame1, nodesF1⟩ := delete_children_fold ihf W hl hit
      hroot (by omega) item.children hnodup (fun c h => h) m W
      (shrinks_refl t m) (fun c hc u hu => rfl) (fun c hc j it hjt _ => hjt)
    have hdict1_path : dictGet m1.all_items path = some id := by
      rw [frame1 path K1]
      exact hl
    have hdict1_pp : dictGet m1.all_items pp = dictGet m.all_items pp :=
      frame1 pp K3
    have hdesc_split : ∀ u, DescKey m id u →
        u = path ∨ ∃ c ∈ item.children, DescKey m c u := by
      intro u hu
      obtain ⟨j, jt, hdj, hjt, hju⟩ := hu
      rcases desc_split hit hdj with rfl | ⟨c, hc, hdc⟩
      · rw [hit] at hjt
        rw [Option.some.injEq] at hjt
        rw [← hju, ← hjt, hitem_url]
        exact Or.inl rfl
      · exact Or.inr ⟨c, hc, j, jt, hdc, hjt, hju⟩
    have hnot_split : ∀ u, ¬ DescKey m id u →
        u ≠ path ∧ ∀ c ∈ item.children, ¬ DescKey m c u := by
      intro u hn
      constructor
      · intro h
        subst h
        exact hn ⟨id, item, Desc.refl, hit, hitem_url⟩
      · intro c hc hdc
        exact hn (descKey_of_child hit hc hdc)
    have hm2_all : m2.all_items = m1.all_items :=
      removeParentStep_all_items m1 pp id t
    have hm2_upd : m2.updated_items = m1.updated_items :=
      removeParentStep_updated m1 pp id t
    have hpit_url : ∀ (pid : Nat) (pit : OutlineItem),
        m1.lookup pp = some (pid, pit) → pit.url = pp := by
      intro pid pit h
      obtain ⟨hd, hn⟩ := lookup_eq_some.mp h
      obtain ⟨it0, hit0, hu0⟩ := W1.refs pp pid hd
      rw [hn] at hit0
      rw [Option.some.injEq] at hit0
      rw [← hit0] at hu0
      exact hu0
    have hm2_nodes_frame : ∀ (j : Nat) (it : OutlineItem),
        m1.nodes[j]? = some it → it.url ≠ pp → m2.nodes[j]? = some it := by
      intro j it hjt hne
      cases hlp : m1.lookup pp with
      | none => rw [hm2def, removeParentStep_of_none hlp]; exact hjt
      | some pr =>
        obtain ⟨pid, pit⟩ := pr
        rw [hm2def, removeParentStep_of_some hlp]
        by_cases hjp : j = pid
        · subst hjp
          rw [(lookup_eq_some.mp hlp).2] at hjt
          rw [Option.some.injEq] at hjt
          rw [← hjt] at hne
          exact absurd (hpit_url j pit hlp) hne
        · rw [show ({ m1 with nodes := m1.nodes.set pid (pit.remove_child id t).1
              } : OutlineModel).nodes
              = m1.nodes.set pid (pit.remove_child id t).1 from rfl]
          rw [List.getElem?_set_ne (Ne.symm hjp)]
          exact hjt
    have hm2_parent : ∀ (pid : Nat) (pit : OutlineItem),
        m1.lookup pp = some (pid, pit) →
        m2.nodes[pid]? = some (pit.remove_child id t).1 := by
      intro pid pit h
      rw [hm2def, removeParentStep_of_some h]
      exact getElem?_set_self (List.getElem?_eq_some.mp (lookup_eq_some.mp h).2).1
    have hW2 : Winv m2 := winv_removeParentStep W1 pp id t
    have hid_node_m1 : ∃ it', m1.nodes[id]? = some it' ∧ it'.url = path := by
      obtain ⟨it', h1, h2, -⟩ := S1.urls id item hit
      exact ⟨it', h1, by rw [h2, hitem_url]⟩
    have hm1_parent_of_id : ∀ (u : Key) (i : Nat) (it : OutlineItem),
        live m1 u i → m1.nodes[i]? = some it → id ∈ it.children → u = pp := by
      intro u i it hliu hit2 hmem
      obtain ⟨c, hcnode, hlc, hlen, hppc⟩ := W1.childs u i it hliu hit2 id hmem
      obtain ⟨it', hit', hurl'⟩ := hid_node_m1
      rw [hit'] at hcnode
      rw [Option.some.injEq] at hcnode
      rw [hcnode] at hurl'
      rw [hurl'] at hppc
      rw [← hppc]
    have hnochild : ∀ (u : Key) (i : Nat) (it : OutlineItem), live m2 u i →
        u ≠ path → m2.nodes[i]? = some it → id ∉ it.children := by
      intro u i it hliu hne hit2 hmem
      have hliu1 : live m1 u i := by
        unfold live at hliu ⊢
        rw [← hm2_all]
        exact hliu
      cases hlp : m1.lookup pp with
      | none =>
        rw [hm2def, removeParentStep_of_none hlp] at hit2
        have hupp := hm1_parent_of_id u i it hliu1 hit2 hmem
        rw [hupp] at hliu1
        have : m1.lookup pp = some (i, it) := lookup_eq_some.mpr ⟨hliu1, hit2⟩
        rw [hlp] at this
        exact absurd this (by simp)
      | some pr =>
        obtain ⟨pid, pit⟩ := pr
        rw [hm2def, removeParentStep_of_some hlp] at hit2
        by_cases hip : i = pid
        · subst hip
          have hb := (List.getElem?_eq_some.mp (lookup_eq_some.mp hlp).2).1
          rw [show ({ m1 with nodes := m1.nodes.set i (pit.remove_child id t).1
              } : OutlineModel).nodes
              = m1.nodes.set i (pit.remove_child id t).1 from rfl] at hit2
          rw [getElem?_set_self hb] at hit2
          rw [Option.some.injEq] at hit2
          rw [← hit2] at hmem
          have hnd := W1.nodup pp i pit (lookup_eq_some.mp hlp).1
            (lookup_eq_some.mp hlp).2
          exact remove_child_not_mem t hnd hmem
        · rw [show ({ m1 with nodes := m1.nodes.set pid (pit.remove_child id t).1
              } : OutlineModel).nodes
              = m1.nodes.set pid (pit.remove_child id t).1 from rfl] at hit2
          rw [List.getElem?_set_ne (Ne.symm hip)] at hit2
          have hupp := hm1_parent_of_id u i it hliu1 hit2 hmem
          rw [hupp] at hliu1
          have := live_unique hliu1 (lookup_eq_some.mp hlp).1
          exact hip this
    refine ⟨rfl, ?_, ?_, ?_, ?_, ?_, ?_⟩
    · intro u hu
      show dictGet (dictRemove m2.all_items path) u = none
      rw [dictGet_remove]
      by_cases h : u = path
      · rw [if_pos h]
      · rw [if_neg h]
        rcases hdesc_split u hu with h1 | ⟨c, hc, hdc⟩
        · exact absurd h1 h
        · rw [hm2_all]
          exact rem1 c hc u hdc
    · intro u hn
      obtain ⟨hne, hnc⟩ := hnot_split u hn
      show dictGet (dictRemove m2.all_items path) u = dictGet m.all_items u
      rw [dictGet_remove, if_neg hne, hm2_all]
      exact frame1 u hnc
    · intro j it hjt hne_pp hnd
      obtain ⟨hne_path, hnc⟩ := hnot_split it.url hnd
      have h1 : m1.nodes[j]? = some it := nodesF1 j it hjt hne_path hnc
      exact hm2_nodes_frame j it h1 hne_pp
    · intro pid pit hlpp hpitn
      have hpurl : pit.url = pp := by
        obtain ⟨it0, hit0, hu0⟩ := W.refs pp pid hlpp
        rw [hpitn] at hit0
        rw [Option.some.injEq] at hit0
        rw [← hit0] at hu0
        exact hu0
      have h1 : m1.nodes[pid]? = some pit := by
        apply nodesF1 pid pit hpitn
        · rw [hpurl]; exact hppne
        · rw [hpurl]; exact K3
      have hlook1 : m1.lookup pp = some (pid, pit) :=
        lookup_eq_some.mpr ⟨by rw [hdict1_pp]; exact hlpp, h1⟩
      exact hm2_parent pid pit hlook1
    · exact self_mem_setAdd _ _
    · refine winv_finalizeDelete hW2 ?_ hnochild
      rw [hm2_all]
      exact hdict1_path

/- ### A decidable sufficient check for Winv (used on concrete stores) -/

/-- Boolean check of the `Winv` child conditions for one child slot. -/
def WchkChild (m : OutlineModel) (u : Key) (cid : Nat) : Bool :=
  match m.nodes[cid]? with
  | none => false
  | some c =>
    (dictGet m.all_items c.url == some cid) &&
    decide (u.length < c.url.length) &&
    (parentPathOf c.url == u)

/-- Boolean check of the `Winv` conditions for one live node. -/
def WchkNode (m : OutlineModel) (u : Key) (it : OutlineItem) : Bool :=
  (it.url == u) && decide it.children.Nodup &&
  (u == rootKey ||
    (decide ((parentPathOf u).length < u.length) &&
     decide (rootKey.length < u.length))) &&
  (u.getLast? == some '/') &&
  it.children.all (fun cid => WchkChild m u cid)

def WchkEntry (m : OutlineModel) (u : Key) (i : Nat) : Bool :=
  match m.nodes[i]? with
  | none => false
  | some it => WchkNode m u it

def WinvChk (m : OutlineModel) : Bool :=
  m.all_items.all (fun p =>
    match dictGet m.all_items p.1 with
    | none => true
    | some i => WchkEntry m p.1 i)

theorem winv_of_chk {m : OutlineModel} (h : WinvChk m = true) : Winv m := by
  have hent : ∀ u i, live m u i → WchkEntry m u i = true := by
    intro u i hli
    have hp := (List.all_eq_true.mp h) (u, i) (dictGet_mem hli)
    have hp2 : (match dictGet m.all_items u with
        | none => true
        | some j => WchkEntry m u j) = true := hp
    rw [hli] at hp2
    exact hp2
  have hchild : ∀ u cid, WchkChild m u cid = true →
      ∃ c, m.nodes[cid]? = some c ∧ live m c.url cid ∧
        u.length < c.url.length ∧ parentPathOf c.url = u := by
    intro u cid hc
    unfold WchkChild at hc
    cases hcn : m.nodes[cid]? with
    | none => rw [hcn] at hc; simp at hc
    | some c =>
      rw [hcn] at hc
      simp only [Bool.and_eq_true, beq_iff_eq, decide_eq_true_eq] at hc
      obtain ⟨⟨hdc, hlenc⟩, hpc⟩ := hc
      exact ⟨c, rfl, hdc, hlenc, hpc⟩
  have hmain : ∀ u i, live m u i → ∃ it, m.nodes[i]? = some it ∧ it.url = u ∧
      it.children.Nodup ∧
      (u = rootKey ∨ ((parentPathOf u).length < u.length ∧
        rootKey.length < u.length)) ∧
      u.getLast? = some '/' ∧
      ∀ cid ∈ it.children, ∃ c, m.nodes[cid]? = some c ∧
        live m c.url cid ∧ u.length < c.url.length ∧ parentPathOf c.url = u := by
    intro u i hli
    have hp := hent u i hli
    unfold WchkEntry at hp
    cases hn : m.nodes[i]? with
    | none => rw [hn] at hp; simp at hp
    | some it =>
      rw [hn] at hp
      have hp2 : WchkNode m u it = true := hp
      unfold WchkNode at hp2
      simp only [Bool.and_eq_true, Bool.or_eq_true, beq_iff_eq,
        decide_eq_true_eq, List.all_eq_true] at hp2
      obtain ⟨⟨⟨⟨hurl, hnodup⟩, hroot⟩, hlast⟩, hch⟩ := hp2
      refine ⟨it, rfl, hurl, hnodup, hroot, hlast, ?_⟩
      intro cid hcid
      exact hchild u cid (by simpa using hch cid hcid)
  refine ⟨?_, ?_, ?_, ?_, ?_, ?_⟩
  · intro u i hli
    obtain ⟨it, h1, h2, -⟩ := hmain u i hli
    exact ⟨it, h1, h2⟩
  · intro u i it0 hli hit0 cid hcid
    obtain ⟨it, h1, -, -, -, -, hch⟩ := hmain u i hli
    rw [hit0] at h1
    rw [Option.some.injEq] at h1
    subst h1
    exact hch cid hcid
  · intro u i it0 hli hit0
    obtain ⟨it, h1, -, hnodup, -⟩ := hmain u i hli
    rw [hit0] at h1
    rw [Option.some.injEq] at h1
    subst h1
    exact hnodup
  · intro u i hli hne
    obtain ⟨it, -, -, -, hroot, -⟩ := hmain u i hli
    rcases hroot with h1 | h1
    · exact absurd h1 hne
    · exact h1.1
  · intro u i hli
    obtain ⟨it, -, -, -, -, hlast, -⟩ := hmain u i hli
    exact hlast
  · intro u i hli hne
    obtain ⟨it, -, -, -, hroot, -⟩ := hmain u i hli
    rcases hroot with h1 | h1
    · exact absurd h1 hne
    · exact h1.2

/- ### Claim C3: deleteItem failure cases -/

/-- Claim C3: on a well-formed store, `delete_item` returns `false`
exactly when the key is the root key or does not resolve, and in both
failure cases the entire store state is unchanged. -/
theorem c3_delete_item_spec (m : OutlineModel) (k : Key) (t : Nat) (W : Winv m) :
    ((m.delete_item k t).1 = false ↔ (k = rootKey ∨ m.get_item k = none)) ∧
    ((k = rootKey ∨ m.get_item k = none) → (m.delete_item k t).2 = m) := by
  constructor
  · constructor
    · intro hfalse
      by_contra hcon
      push_neg at hcon
      obtain ⟨hroot, hsome⟩ := hcon
      obtain ⟨pr, hitem⟩ := Option.ne_none_iff_exists'.mp hsome
      obtain ⟨i, hlook⟩ := get_item_eq_some.mp hitem
      obtain ⟨hdict, hnode⟩ := lookup_eq_some.mp hlook
      have hD := deleteFuel_del t (m.all_items.length + 1) m k i pr W hdict hnode
        hroot (by have := keyMeasure_le_length m k; omega)
      have hok := hD.ok
      rw [OutlineModel.delete_item] at hfalse
      rw [hok] at hfalse
      exact absurd hfalse (by simp)
    · intro h
      by_cases hr : k = rootKey
      · rw [OutlineModel.delete_item, deleteFuel, if_pos hr]
      · rcases h with h | h
        · exact absurd h hr
        · rw [OutlineModel.delete_item, deleteFuel, if_neg hr,
            get_item_eq_none.mp h]
  · intro h
    by_cases hr : k = rootKey
    · rw [OutlineModel.delete_item, deleteFuel, if_pos hr]
    · rcases h with h | h
      · exact absurd h hr
      · rw [OutlineModel.delete_item, deleteFuel, if_neg hr,
          get_item_eq_none.mp h]

/-- Witness for C3 on a store with one child: deleting the root fails
and changes nothing; deleting the existing child does not return
`false`; deleting a missing key fails. -/
theorem c3_delete_item_witness :
    (((applyOp (initModel 0) (Op.create rootKey ['A'] 1)).delete_item rootKey 2).2
      = applyOp (initModel 0) (Op.create rootKey ['A'] 1)) ∧
    ¬ (((applyOp (initModel 0) (Op.create rootKey ['A'] 1)).delete_item
        (rootKey ++ ['0', '/']) 2).1 = false) ∧
    (((applyOp (initModel 0) (Op.create rootKey ['A'] 1)).delete_item
        (['m', 'i', 's', 's']) 2).1 = false) := by
  refine ⟨?_, ?_, ?_⟩
  · exact (c3_delete_item_spec _ rootKey 2 (winv_of_chk (by decide))).2 (Or.inl rfl)
  · intro hf
    have h := (c3_delete_item_spec _ (rootKey ++ ['0', '/']) 2
      (winv_of_chk (by decide))).1.mp hf
    rcases h with h | h
    · exact absurd h (by decide)
    · exact absurd h (by decide)
  · exact (c3_delete_item_spec _ (['m', 'i', 's', 's']) 2
      (winv_of_chk (by decide))).1.mpr (Or.inr (by decide))

/- ### Claim C2: recursive delete (corrected) -/

/-- Counterexample to claim C2 as stated: in the reachable store built
by create, create, delete-first, create (where the key `/outline/1/` is
carried by two nodes), deleting `/outline/1/` returns true and unmaps
the key, but the root's child sequence still contains a node carrying
that key, so the deleted key is still present in its parent's child
sequence. -/
theorem c2_counterexample :
    ((applyOp mC10 (Op.create rootKey ['C'] 4)).delete_item
        (rootKey ++ ['1', '/']) 5).1 = true ∧
    (((applyOp mC10 (Op.create rootKey ['C'] 4)).delete_item
        (rootKey ++ ['1', '/']) 5).2).get_item (rootKey ++ ['1', '/']) = none ∧
    ((((applyOp mC10 (Op.create rootKey ['C'] 4)).delete_item
        (rootKey ++ ['1', '/']) 5).2).nodes[0]?).map (fun r => r.children)
      = some [2] ∧
    ((((applyOp mC10 (Op.create rootKey ['C'] 4)).delete_item
        (rootKey ++ ['1', '/']) 5).2).nodes[2]?).map (fun b => b.url)
      = some (rootKey ++ ['1', '/']) := by
  decide

/-- Claim C2 as amended: on a well-formed store (no key collisions),
deleting an existing non-root key returns true; afterwards `get_item`
on the key and on every key of its subtree reports not-found; no child
of the parent's node carries the deleted key any more; and the parent
key is marked dirty. -/
theorem c2_delete_item_amended (m : OutlineModel) (k : Key) (t : Nat)
    (id : Nat) (item : OutlineItem) (W : Winv m)
    (hlook : m.lookup k = some (id, item)) (hroot : k ≠ rootKey) :
    (m.delete_item k t).1 = true ∧
    ((m.delete_item k t).2).get_item k = none ∧
    (∀ u, DescKey m id u → ((m.delete_item k t).2).get_item u = none) ∧
    (∀ (pid : Nat) (pit : OutlineItem),
      m.lookup (parentPathOf k) = some (pid, pit) →
      ∀ it', ((m.delete_item k t).2).nodes[pid]? = some it' →
        ∀ cid ∈ it'.children, ∀ c, ((m.delete_item k t).2).nodes[cid]? = some c →
          c.url ≠ k) ∧
    parentPathOf k ∈ ((m.delete_item k t).2).updated_items := by
  obtain ⟨hdict, hnode⟩ := lookup_eq_some.mp hlook
  have hD := deleteFuel_del t (m.all_items.length + 1) m k id item W hdict hnode
    hroot (by have := keyMeasure_le_length m k; omega)
  have S := shrinks_deleteFuel t (m.all_items.length + 1) m k
  have hitem_url : item.url = k := by
    obtain ⟨it0, hit0, hu0⟩ := W.refs k id hdict
    rw [hnode] at hit0
    rw [Option.some.injEq] at hit0
    rw [← hit0] at hu0
    exact hu0
  have hkdesc : DescKey m id k := ⟨id, item, Desc.refl, hnode, hitem_url⟩
  refine ⟨hD.ok, ?_, ?_, ?_, hD.dirtyParent⟩
  · rw [get_item_eq_none]
    exact lookup_none_of_dictGet_none (hD.removed k hkdesc)
  · intro u hu
    rw [get_item_eq_none]
    exact lookup_none_of_dictGet_none (hD.removed u hu)
  · intro pid pit hplook it' hit' cid hcid c hc hck
    obtain ⟨hpd, hpn⟩ := lookup_eq_some.mp hplook
    have hit'' : (m.delete_item k t).2.nodes[pid]? = some (pit.remove_child id t).1 :=
      hD.parentNode pid pit hpd hpn
    rw [hit'] at hit''
    rw [Option.some.injEq] at hit''
    subst hit''
    have hcid_pit : cid ∈ pit.children := remove_child_children_subset _ _ _ hcid
    have hcid_ne : cid ≠ id := by
      intro h
      rw [h] at hcid
      exact remove_child_not_mem t (W.nodup (parentPathOf k) pid pit hpd hpn) hcid
    obtain ⟨cm, hcm, hlcm, -, -⟩ := W.childs (parentPathOf k) pid pit hpd hpn
      cid hcid_pit
    have hcmurl : cm.url ≠ k := by
      intro h
      rw [h] at hlcm
      exact hcid_ne (live_unique hlcm hdict)
    obtain ⟨c2, hc2, hcu2, -, -⟩ := S.urls cid cm hcm
    have hc2' : (m.delete_item k t).2.nodes[cid]? = some c2 := hc2
    have : c2 = c := by
      rw [hc] at hc2'
      rw [Option.some.injEq] at hc2'
      exact hc2'.symm
    rw [← this] at hck
    rw [hcu2] at hck
    exact hcmurl hck

/-- Witness for the amended C2 on a store with one child. -/
theorem c2_delete_item_witness :
    ((applyOp (initModel 0) (Op.create rootKey ['A'] 1)).delete_item
        (rootKey ++ ['0', '/']) 2).1 = true ∧
    (((applyOp (initModel 0) (Op.create rootKey ['A'] 1)).delete_item
        (rootKey ++ ['0', '/']) 2).2).get_item (rootKey ++ ['0', '/']) = none ∧
    parentPathOf (rootKey ++ ['0', '/']) ∈
      (((applyOp (initModel 0) (Op.create rootKey ['A'] 1)).delete_item
        (rootKey ++ ['0', '/']) 2).2).updated_items := by
  obtain ⟨h1, h2, h3, h4, h5⟩ := c2_delete_item_amended
    (applyOp (initModel 0) (Op.create rootKey ['A'] 1)) (rootKey ++ ['0', '/'])
    2 1 _ (winv_of_chk (by decide)) rfl (by decide)
  exact ⟨h1, h2, h5⟩

/- ### Claim C9: last_modified monotonicity -/

/-- Every node's clock value is at most `t` (the clock has not run
backwards relative to the stored timestamps). -/
def ClockLB (m : OutlineModel) (t : Nat) : Prop :=
  ∀ (j : Nat) (it : OutlineItem), m.nodes[j]? = some it → it.last_modified ≤ t

/-- The clock value an operation runs at. -/
def Op.time : Op → Nat
  | Op.create _ _ t => t
  | Op.update _ _ t => t
  | Op.delete _ t => t

/-- The operations of a trace run at non-decreasing clock values,
starting no earlier than `t0`. -/
def TimesMono : Nat → List Op → Prop
  | _, [] => True
  | t0, o :: ops => t0 ≤ o.time ∧ TimesMono o.time ops

theorem getElem?_set_append_cases {l : List OutlineItem} {i : Nat}
    {a b it : OutlineItem} {j : Nat} (hi : i < l.length)
    (h : ((l.set i a) ++ [b])[j]? = some it) :
    (j = i ∧ it = a) ∨ (j = l.length ∧ it = b) ∨ (j ≠ i ∧ l[j]? = some it) := by
  by_cases hji : j = i
  · subst hji
    rw [getElem?_set_append_self hi] at h
    rw [Option.some.injEq] at h
    exact Or.inl ⟨rfl, h.symm⟩
  · by_cases hjl : j = l.length
    · subst hjl
      rw [getElem?_set_append_last] at h
      rw [Option.some.injEq] at h
      exact Or.inr (Or.inl ⟨rfl, h.symm⟩)
    · rw [getElem?_set_append_other hji hjl] at h
      exact Or.inr (Or.inr ⟨hji, h⟩)

theorem getElem?_set_cases {l : List OutlineItem} {i : Nat} {a it : OutlineItem}
    {j : Nat} (hi : i < l.length) (h : (l.set i a)[j]? = some it) :
    (j = i ∧ it = a) ∨ (j ≠ i ∧ l[j]? = some it) := by
  by_cases hji : j = i
  · subst hji
    rw [getElem?_set_self hi] at h
    rw [Option.some.injEq] at h
    exact Or.inl ⟨rfl, h.symm⟩
  · rw [List.getElem?_set_ne (Ne.symm hji)] at h
    exact Or.inr ⟨hji, h⟩

/-- One operation cannot decrease any surviving node's `last_modified`
when the clock is not behind it, and keeps all timestamps at most the
operation time. -/
theorem applyOp_lm_mono {m : OutlineModel} {o : Op} (h : ClockLB m o.time) :
    (∀ (j : Nat) (it : OutlineItem), m.nodes[j]? = some it →
      ∃ it', (applyOp m o).nodes[j]? = some it' ∧
        it.last_modified ≤ it'.last_modified) ∧
    ClockLB (applyOp m o) o.time := by
  cases o with
  | create p tx t =>
    show (∀ (j : Nat) (it : OutlineItem), _) ∧ _
    cases hl : m.lookup p with
    | none =>
      have happ : applyOp m (Op.create p tx t) = m := by
        simp only [applyOp]
        unfold OutlineModel.create_item
        rw [hl]
      rw [happ]
      exact ⟨fun j it hj => ⟨it, hj, Nat.le_refl _⟩, h⟩
    | some pr =>
      obtain ⟨pid, parent⟩ := pr
      have hpid : pid < m.nodes.length :=
        (List.getElem?_eq_some.mp (lookup_eq_some.mp hl).2).1
      have hpn := (lookup_eq_some.mp hl).2
      have happ : (applyOp m (Op.create p tx t)).nodes
          = (m.nodes.set pid (parent.add_child m.nodes.length t))
            ++ [{ url := p ++ natToChars parent.children.length ++ ['/'],
                  text := tx, children := [], last_modified := t }] := by
        simp only [applyOp]
        unfold OutlineModel.create_item
        rw [hl]
      constructor
      · intro j it hj
        by_cases hji : j = pid
        · subst hji
          have hpn2 : it = parent := by
            rw [hj] at hpn
            rw [Option.some.injEq] at hpn
            exact hpn
          refine ⟨parent.add_child m.nodes.length t, ?_, ?_⟩
          · rw [happ]
            exact getElem?_set_append_self hpid
          · rw [hpn2]
            exact h j parent (by rw [← hpn2]; exact hj)
        · refine ⟨it, ?_, Nat.le_refl _⟩
          have hjl : j ≠ m.nodes.length := by
            intro hje
            rw [hje] at hj
            rw [List.getElem?_eq_none (Nat.le_refl _)] at hj
            exact absurd hj (by simp)
          rw [happ, getElem?_set_append_other hji hjl]
          exact hj
      · intro j it hj
        rw [happ] at hj
        rcases getElem?_set_append_cases hpid hj with ⟨-, rfl⟩ | ⟨-, rfl⟩ | ⟨-, hj'⟩
        · exact Nat.le_refl _
        · exact Nat.le_refl _
        · exact h j it hj'
  | update p tx t =>
    show (∀ (j : Nat) (it : OutlineItem), _) ∧ _
    cases hl : m.lookup p with
    | none =>
      have happ : applyOp m (Op.update p tx t) = m := by
        simp only [applyOp]
        unfold OutlineModel.update_item
        rw [hl]
      rw [happ]
      exact ⟨fun j it hj => ⟨it, hj, Nat.le_refl _⟩, h⟩
    | some pr =>
      obtain ⟨i, item⟩ := pr
      have hi : i < m.nodes.length :=
        (List.getElem?_eq_some.mp (lookup_eq_some.mp hl).2).1
      have hin := (lookup_eq_some.mp hl).2
      have happ : (applyOp m (Op.update p tx t)).nodes
          = m.nodes.set i { item with text := tx, last_modified := t } := by
        simp only [applyOp]
        unfold OutlineModel.update_item
        rw [hl]
      constructor
      · intro j it hj
        by_cases hji : j = i
        · subst hji
          rw [hj] at hin
          rw [Option.some.injEq] at hin
          subst hin
          refine ⟨{ it with text := tx, last_modified := t }, ?_, h j it hj⟩
          rw [happ]
          exact getElem?_set_self hi
        · refine ⟨it, ?_, Nat.le_refl _⟩
          rw [happ, List.getElem?_set_ne (Ne.symm hji)]
          exact hj
      · intro j it hj
        rw [happ] at hj
        rcases getElem?_set_cases hi hj with ⟨-, rfl⟩ | ⟨-, hj'⟩
        · exact Nat.le_refl _
        · exact h j it hj'
  | delete p t =>
    have S := shrinks_deleteFuel t (m.all_items.length + 1) m p
    constructor
    · intro j it hj
      obtain ⟨it', h1, -, -, hlm⟩ := S.urls j it hj
      refine ⟨it', h1, ?_⟩
      rcases hlm with h2 | h2
      · rw [h2]
      · rw [h2]
        exact h j it hj
    · intro j it hj
      have hjl : j < m.nodes.length := by
        have hx := (List.getElem?_eq_some.mp hj).1
        have hx2 : j < (deleteFuel (m.all_items.length + 1) m p t).2.nodes.length := hx
        have hlen := S.len
        omega
      obtain ⟨itm, hitm⟩ := exists_node_of_lt hjl
      obtain ⟨it', h1, -, -, hlm⟩ := S.urls j itm hitm
      have hit' : it' = it := by
        have h1' : (applyOp m (Op.delete p t)).nodes[j]? = some it' := h1
        rw [hj] at h1'
        rw [Option.some.injEq] at h1'
        exact h1'.symm
      subst hit'
      rcases hlm with h2 | h2
      · rw [h2]
        exact h j itm hitm
      · rw [h2]
        exact Nat.le_refl _

theorem applyOps_lm_mono :
    ∀ (ops : List Op) (m : OutlineModel) (t0 : Nat), ClockLB m t0 →
      TimesMono t0 ops →
      ∀ (j : Nat) (it it' : OutlineItem), m.nodes[j]? = some it →
        (applyOps m ops).nodes[j]? = some it' →
        it.last_modified ≤ it'.last_modified := by
  intro ops
  induction ops with
  | nil =>
    intro m t0 _ _ j it it' h1 h2
    have h2' : m.nodes[j]? = some it' := h2
    rw [h1] at h2'
    rw [Option.some.injEq] at h2'
    rw [← h2']
  | cons o ops' ih =>
    intro m t0 hclock hmono j it it' h1 h2
    obtain ⟨hle, hmono'⟩ := hmono
    have hclock' : ClockLB m o.time := fun j it hj =>
      Nat.le_trans (hclock j it hj) hle
    obtain ⟨hstep, hclockstep⟩ := applyOp_lm_mono hclock'
    obtain ⟨itm, hitm, hlem⟩ := hstep j it h1
    have h2' : (applyOps (applyOp m o) ops').nodes[j]? = some it' := h2
    have := ih (applyOp m o) o.time hclockstep hmono' j itm it' hitm h2'
    omega

theorem remove_child_lm_of_mem {pit : OutlineItem} {id : Nat} (t : Nat)
    (h : id ∈ pit.children) :
    ((pit.remove_child id t).1).last_modified = t := by
  unfold OutlineItem.remove_child
  rw [if_pos h]

theorem create_item_of_lookup {m : OutlineModel} {p tx : Key} {t : Nat}
    {pid : Nat} {parent : OutlineItem} (hl : m.lookup p = some (pid, parent)) :
    m.create_item p tx t = some
      ({ url := p ++ natToChars parent.children.length ++ ['/']
         text := tx
         children := []
         last_modified := t },
       { nodes := (m.nodes.set pid (parent.add_child m.nodes.length t)) ++
           [{ url := p ++ natToChars parent.children.length ++ ['/']
              text := tx
              children := []
              last_modified := t }]
         all_items := dictInsert m.all_items
           (p ++ natToChars parent.children.length ++ ['/']) m.nodes.length
         updated_items := setAdd (setAdd m.updated_items
           (p ++ natToChars parent.children.length ++ ['/'])) p
         item_count := m.item_count + 1 }) := by
  unfold OutlineModel.create_item
  rw [hl]

theorem update_item_of_lookup {m : OutlineModel} {k tx : Key} {t : Nat}
    {i : Nat} {it : OutlineItem} (hl : m.lookup k = some (i, it)) :
    m.update_item k tx t = some
      ({ it with text := tx, last_modified := t },
       { m with
         nodes := m.nodes.set i ({ it with text := tx, last_modified := t })
         updated_items := setAdd m.updated_items k }) := by
  unfold OutlineModel.update_item
  rw [hl]

/-- Claim C9: under a monotone clock every node's `last_modified` is
non-decreasing across any sequence of operations, and every mutation
touching a node stamps it with the operation time: `update_item` on it,
`create_item` of a child under it (both the parent and the new node),
and `delete_item` of one of its children. -/
theorem c9_last_modified_spec :
    (∀ (ops : List Op) (m : OutlineModel) (t0 : Nat), ClockLB m t0 →
      TimesMono t0 ops →
      ∀ (j : Nat) (it it' : OutlineItem), m.nodes[j]? = some it →
        (applyOps m ops).nodes[j]? = some it' →
        it.last_modified ≤ it'.last_modified) ∧
    (∀ (m : OutlineModel) (p tx : Key) (t : Nat) (pid : Nat)
      (parent : OutlineItem), m.lookup p = some (pid, parent) →
      ∃ ni m', m.create_item p tx t = some (ni, m') ∧ ni.last_modified = t ∧
        m'.nodes[pid]? = some { parent with
          children := parent.children ++ [m.nodes.length],
          last_modified := t }) ∧
    (∀ (m : OutlineModel) (k tx : Key) (t : Nat) (i : Nat) (it : OutlineItem),
      m.lookup k = some (i, it) →
      ∃ m', m.update_item k tx t
          = some ({ it with text := tx, last_modified := t }, m') ∧
        m'.nodes[i]? = some { it with text := tx, last_modified := t }) ∧
    (∀ (m : OutlineModel) (k : Key) (t : Nat) (id pid : Nat)
      (item pit : OutlineItem), Winv m → m.lookup k = some (id, item) →
      k ≠ rootKey → m.lookup (parentPathOf k) = some (pid, pit) →
      id ∈ pit.children →
      ∃ pit', ((m.delete_item k t).2).nodes[pid]? = some pit' ∧
        pit'.last_modified = t) := by
  refine ⟨applyOps_lm_mono, ?_, ?_, ?_⟩
  · intro m p tx t pid parent hl
    have hpid : pid < m.nodes.length :=
      (List.getElem?_eq_some.mp (lookup_eq_some.mp hl).2).1
    refine ⟨_, _, create_item_of_lookup hl, rfl, ?_⟩
    exact getElem?_set_append_self hpid
  · intro m k tx t i it hl
    have hi : i < m.nodes.length :=
      (List.getElem?_eq_some.mp (lookup_eq_some.mp hl).2).1
    refine ⟨_, update_item_of_lookup hl, ?_⟩
    exact getElem?_set_self hi
  · intro m k t id pid item pit W hl hroot hpl hmem
    obtain ⟨hdict, hnode⟩ := lookup_eq_some.mp hl
    obtain ⟨hpd, hpn⟩ := lookup_eq_some.mp hpl
    have hD := deleteFuel_del t (m.all_items.length + 1) m k id item W hdict
      hnode hroot (by have := keyMeasure_le_length m k; omega)
    have hres : (m.delete_item k t).2.nodes[pid]?
        = some (pit.remove_child id t).1 := hD.parentNode pid pit hpd hpn
    exact ⟨(pit.remove_child id t).1, hres, remove_child_lm_of_mem t hmem⟩

/-- Witness for C9 on a concrete trace and concrete touch instances. -/
theorem c9_last_modified_witness :
    (∀ (j : Nat) (it it' : OutlineItem), (initModel 0).nodes[j]? = some it →
      (applyOps (initModel 0) [Op.create rootKey ['A'] 1,
        Op.update rootKey ['B'] 2,
        Op.delete (rootKey ++ ['0', '/']) 3]).nodes[j]? = some it' →
      it.last_modified ≤ it'.last_modified) ∧
    (∃ ni m', (initModel 0).create_item rootKey ['A'] 1 = some (ni, m') ∧
      ni.last_modified = 1 ∧
      m'.nodes[0]? = some { rootItem 0 with
        children := (rootItem 0).children ++ [(initModel 0).nodes.length],
        last_modified := 1 }) ∧
    (∃ pit', (((applyOp (initModel 0) (Op.create rootKey ['A'] 1)).delete_item
        (rootKey ++ ['0', '/']) 2).2).nodes[0]? = some pit' ∧
      pit'.last_modified = 2) := by
  refine ⟨?_, ?_, ?_⟩
  · exact c9_last_modified_spec.1 _ (initModel 0) 0 (lm_bound_of_all (by decide))
      ⟨by decide, by decide, by decide, trivial⟩
  · exact c9_last_modified_spec.2.1 (initModel 0) rootKey ['A'] 1 0 (rootItem 0) rfl
  · exact c9_last_modified_spec.2.2.2 _ (rootKey ++ ['0', '/']) 2 1 0 _ _
      (winv_of_chk (by decide)) rfl (by decide) rfl (by decide)

/- ### Claim C8: no key collision without deletions -/

theorem natToChars_getLast (n : Nat) :
    (natToChars n).getLast? = some (Nat.digitChar (n % 10)) := by
  rw [natToChars_eq_digitsRep]
  by_cases h10 : n < 10
  · rw [digitsRep, if_pos h10, Nat.mod_eq_of_lt h10]
    rfl
  · rw [digitsRep, if_neg h10]
    simp

theorem endSlash_concat (a s : Key) :
    (a ++ (s ++ ['/'])).getLast? = some '/' := by
  rw [← List.append_assoc]
  simp

theorem rootKey_not_seg (pk : Key) (n : Nat) :
    pk ++ (natToChars n ++ ['/']) ≠ rootKey := by
  intro h
  have h1 : ((pk ++ natToChars n) ++ ['/']).dropLast = rootKey.dropLast := by
    rw [List.append_assoc, h]
  rw [List.dropLast_concat] at h1
  have h2 : (pk ++ natToChars n).getLast? = some (Nat.digitChar (n % 10)) := by
    rw [List.getLast?_append_of_ne_nil _ (natToChars_ne_nil n), natToChars_getLast]
  rw [h1] at h2
  have h3 : (rootKey.dropLast).getLast? = some 'e' := by decide
  rw [h2] at h3
  rw [Option.some.injEq] at h3
  have h4 : ∀ d, d < 10 → Nat.digitChar d ≠ 'e' := by decide
  exact h4 (n % 10) (Nat.mod_lt _ (by omega)) h3

/-- Density invariant: every live key is the root key or is derived
from a live parent key and an index below the parent's current child
count.  This holds in every state reachable without deletions and
makes the next derived child key fresh. -/
def Dinv (m : OutlineModel) : Prop :=
  ∀ u i, live m u i → u.getLast? = some '/' ∧
    (u = rootKey ∨ ∃ (v : Key) (j i2 : Nat) (it2 : OutlineItem),
      dictGet m.all_items v = some i2 ∧ m.nodes[i2]? = some it2 ∧
      j < it2.children.length ∧ u = v ++ (natToChars j ++ ['/']))

theorem dinv_fresh {m : OutlineModel} (D : Dinv m) {pk : Key} {pid : Nat}
    {p : OutlineItem} (hlp : dictGet m.all_items pk = some pid)
    (hpn : m.nodes[pid]? = some p) (n : Nat) (hn : p.children.length ≤ n) :
    dictGet m.all_items (pk ++ (natToChars n ++ ['/'])) = none := by
  by_contra hcon
  obtain ⟨i, hi⟩ := Option.ne_none_iff_exists'.mp hcon
  obtain ⟨hend, hdec⟩ := D _ i hi
  rcases hdec with hroot | ⟨v, j, i2, it2, hv, hit2, hjlen, hu⟩
  · exact rootKey_not_seg pk n hroot
  · have hvend : v.getLast? = some '/' := (D v i2 hv).1
    have hpkend : pk.getLast? = some '/' := (D pk pid hlp).1
    obtain ⟨hpv, hnj⟩ := key_seg_unique hpkend hvend (natToChars_no_slash n)
      (natToChars_no_slash j) hu
    have hnj' : n = j := natToChars_injective hnj
    subst hpv
    rw [hlp] at hv
    rw [Option.some.injEq] at hv
    subst hv
    rw [hpn] at hit2
    rw [Option.some.injEq] at hit2
    subst hit2
    omega

theorem dinv_init (t0 : Nat) : Dinv (initModel t0) := by
  intro u i hli
  have hli' : dictGet [(rootKey, 0)] u = some i := hli
  rw [dictGet_cons] at hli'
  by_cases h : rootKey = u
  · rw [← h]
    exact ⟨by decide, Or.inl rfl⟩
  · rw [if_neg h] at hli'
    exact absurd hli' (by simp [dictGet])

theorem dinv_create {m : OutlineModel} (D : Dinv m) (p tx : Key) (t : Nat) :
    Dinv (applyOp m (Op.create p tx t)) := by
  cases hl : m.lookup p with
  | none =>
    have happ : applyOp m (Op.create p tx t) = m := by
      simp only [applyOp]
      unfold OutlineModel.create_item
      rw [hl]
    rw [happ]
    exact D
  | some pr =>
    obtain ⟨pid, parent⟩ := pr
    have hpid : pid < m.nodes.length :=
      (List.getElem?_eq_some.mp (lookup_eq_some.mp hl).2).1
    have hpn := (lookup_eq_some.mp hl).2
    have hpd := (lookup_eq_some.mp hl).1
    have happ : applyOp m (Op.create p tx t)
        = (m.create_item p tx t).elim m (fun pr => pr.2) := by
      simp only [applyOp]
      rw [create_item_of_lookup hl]
      rfl
    rw [happ, create_item_of_lookup hl]
    intro u i hli
    have hfreshm : dictGet m.all_items
        (p ++ (natToChars parent.children.length ++ ['/'])) = none :=
      dinv_fresh D hpd hpn parent.children.length (Nat.le_refl _)
    have hli2 : dictGet (dictInsert m.all_items
        (p ++ natToChars parent.children.length ++ ['/']) m.nodes.length) u
        = some i := hli
    rw [dictGet_insert] at hli2
    by_cases hnew : p ++ natToChars parent.children.length ++ ['/'] = u
    · rw [if_pos hnew] at hli2
      rw [Option.some.injEq] at hli2
      constructor
      · rw [← hnew, List.append_assoc]
        exact endSlash_concat p (natToChars parent.children.length)
      · refine Or.inr ⟨p, parent.children.length, pid,
          parent.add_child m.nodes.length t, ?_, ?_, ?_, ?_⟩
        · show dictGet (dictInsert m.all_items
            (p ++ natToChars parent.children.length ++ ['/']) m.nodes.length) p
            = some pid
          rw [dictGet_insert]
          rw [if_neg ?_]
          · exact hpd
          · intro h
            have := congrArg List.length h
            simp only [List.length_append] at this
            have hs := natToChars_ne_nil parent.children.length
            have : 0 < (natToChars parent.children.length).length :=
              List.length_pos.mpr hs
            omega
        · exact getElem?_set_append_self hpid
        · show parent.children.length
            < (parent.add_child m.nodes.length t).children.length
          unfold OutlineItem.add_child
          simp
        · rw [← hnew, List.append_assoc]
    · rw [if_neg hnew] at hli2
      obtain ⟨hend, hdec⟩ := D u i hli2
      refine ⟨hend, ?_⟩
      rcases hdec with hroot | ⟨v, j, i2, it2, hv, hit2, hjlen, hu⟩
      · exact Or.inl hroot
      · have hvne : p ++ natToChars parent.children.length ++ ['/'] ≠ v := by
          intro h
          rw [← h] at hv
          rw [List.append_assoc] at hv
          rw [hfreshm] at hv
          exact absurd hv (by simp)
        have hi2lt : i2 < m.nodes.length := (List.getElem?_eq_some.mp hit2).1
        have hvdict : dictGet (dictInsert m.all_items
            (p ++ natToChars parent.children.length ++ ['/']) m.nodes.length) v
            = some i2 := by
          rw [dictGet_insert, if_neg hvne]
          exact hv
        by_cases hip : i2 = pid
        · have hpe : it2 = parent := by
            rw [hip, hpn] at hit2
            exact (Option.some.inj hit2).symm
          refine Or.inr ⟨v, j, pid, parent.add_child m.nodes.length t,
            ?_, ?_, ?_, hu⟩
          · rw [← hip]
            exact hvdict
          · exact getElem?_set_append_self hpid
          · have hj2 : j < parent.children.length := by
              rw [← hpe]
              exact hjlen
            show j < (parent.add_child m.nodes.length t).children.length
            unfold OutlineItem.add_child
            simp
            omega
        · refine Or.inr ⟨v, j, i2, it2, hvdict, ?_, hjlen, hu⟩
          show (m.nodes.set pid (parent.add_child m.nodes.length t)
            ++ [⟨p ++ natToChars parent.children.length ++ ['/'], tx, [], t⟩])[i2]?
            = some it2
          rw [getElem?_set_append_other hip (by omega)]
          exact hit2

theorem dinv_update {m : OutlineModel} (D : Dinv m) (p tx : Key) (t : Nat) :
    Dinv (applyOp m (Op.update p tx t)) := by
  cases hl : m.lookup p with
  | none =>
    have happ : applyOp m (Op.update p tx t) = m := by
      simp only [applyOp]
      unfold OutlineModel.update_item
      rw [hl]
    rw [happ]
    exact D
  | some pr =>
    obtain ⟨i0, it0⟩ := pr
    have hi0n := (lookup_eq_some.mp hl).2
    have hi0 : i0 < m.nodes.length := (List.getElem?_eq_some.mp hi0n).1
    have happ : applyOp m (Op.update p tx t)
        = { m with
            nodes := m.nodes.set i0 ({ it0 with text := tx, last_modified := t })
            updated_items := setAdd m.updated_items p } := by
      simp only [applyOp]
      rw [update_item_of_lookup hl]
    rw [happ]
    intro u i hli
    have hli2 : dictGet m.all_items u = some i := hli
    obtain ⟨hend, hdec⟩ := D u i hli2
    refine ⟨hend, ?_⟩
    rcases hdec with hroot | ⟨v, j, i2, it2, hv, hit2, hjlen, hu⟩
    · exact Or.inl hroot
    · by_cases hip : i2 = i0
      · have hpe : it2 = it0 := by
          rw [hip, hi0n] at hit2
          exact (Option.some.inj hit2).symm
        refine Or.inr ⟨v, j, i0, { it0 with text := tx, last_modified := t },
          ?_, ?_, ?_, hu⟩
        · rw [← hip]
          exact hv
        · exact getElem?_set_self hi0
        · show j < it0.children.length
          rw [← hpe]
          exact hjlen
      · refine Or.inr ⟨v, j, i2, it2, hv, ?_, hjlen, hu⟩
        show (m.nodes.set i0 _)[i2]? = some it2
        rw [List.getElem?_set_ne (by omega)]
        exact hit2

/-- Checks that a trace contains no delete operation. -/
def noDelete (ops : List Op) : Bool :=
  ops.all (fun o => match o with
    | Op.delete _ _ => false
    | _ => true)

theorem dinv_applyOps (ops : List Op) :
    ∀ m, noDelete ops = true → Dinv m → Dinv (applyOps m ops) := by
  induction ops with
  | nil =>
    intro m _ D
    exact D
  | cons o rest ih =>
    intro m hnd D
    unfold noDelete at hnd
    rw [List.all_cons, Bool.and_eq_true] at hnd
    have happ : applyOps m (o :: rest) = applyOps (applyOp m o) rest := rfl
    rw [happ]
    apply ih _ hnd.2
    cases o with
    | create p tx t => exact dinv_create D p tx t
    | update p tx t => exact dinv_update D p tx t
    | delete p t => exact absurd hnd.1 (by simp)

/-- Claim C8: in every store state reachable from initialization by a
trace of create and update operations with no delete, a successful
`create_item` returns a node whose key is not already present in the
key-to-node mapping: child-key derivation never collides on
delete-free traces. -/
theorem c8_no_collision (t0 : Nat) (ops : List Op) (pk tx : Key)
    (t : Nat) (ni : OutlineItem) (m' : OutlineModel)
    (hnd : noDelete ops = true)
    (hc : (applyOps (initModel t0) ops).create_item pk tx t = some (ni, m')) :
    dictGet (applyOps (initModel t0) ops).all_items ni.url = none := by
  have D : Dinv (applyOps (initModel t0) ops) :=
    dinv_applyOps ops (initModel t0) hnd (dinv_init t0)
  cases hl : (applyOps (initModel t0) ops).lookup pk with
  | none =>
    unfold OutlineModel.create_item at hc
    rw [hl] at hc
    exact absurd hc (by simp)
  | some pr =>
    obtain ⟨pid, parent⟩ := pr
    rw [create_item_of_lookup hl] at hc
    rw [Option.some.injEq, Prod.mk.injEq] at hc
    obtain ⟨hni, -⟩ := hc
    rw [← hni]
    show dictGet (applyOps (initModel t0) ops).all_items
      (pk ++ natToChars parent.children.length ++ ['/']) = none
    rw [List.append_assoc]
    exact dinv_fresh D (lookup_eq_some.mp hl).1 (lookup_eq_some.mp hl).2 _
      (Nat.le_refl _)

def c8ni : OutlineItem :=
  { url := rootKey ++ natToChars 0 ++ ['/']
    text := ['B']
    children := []
    last_modified := 2 }

def c8m : OutlineModel :=
  ((initModel 0).create_item rootKey ['B'] 2).elim (initModel 0) (fun pr => pr.2)

theorem c8_no_collision_witness :
    dictGet (applyOps (initModel 0) []).all_items c8ni.url = none :=
  c8_no_collision 0 [] rootKey ['B'] 2 c8ni c8m rfl rfl

/- ### Claim C7: reachability vs. mapping (corrected) -/

/-- A heap reference is reachable from the root via the children chain:
the chain starts at the node the mapping assigns to the root key. -/
def Reach (m : OutlineModel) (i : Nat) : Prop :=
  ∃ r, dictGet m.all_items rootKey = some r ∧ Desc m r i

/-- The collision state: create two children under the root, delete the
first, create again (the new key `/outline/1/` collides with the
second child's key and overwrites its mapping entry). -/
def mC7 : OutlineModel := applyOp mC10 (Op.create rootKey ['C'] 4)

/-- Counterexample to claim C7 as stated: in the reachable collision
state, heap reference 2 (the old second child) is reachable from the
root via the children chain, but it is not present in the key-to-node
mapping any more: no key resolves to it. -/
theorem c7_counterexample :
    Reach mC7 2 ∧ ¬ (∃ u, dictGet mC7.all_items u = some 2) := by
  constructor
  · refine ⟨0, by decide, ?_⟩
    have h0 : (mC7.nodes[0]?).map (fun x => x.children) = some [2, 3] := by
      decide
    obtain ⟨it0, hit0⟩ : ∃ it0, mC7.nodes[0]? = some it0 := by
      cases h : mC7.nodes[0]? with
      | none =>
        rw [h] at h0
        exact absurd h0 (by simp)
      | some it => exact ⟨it, rfl⟩
    have hch : it0.children = [2, 3] := by
      rw [hit0] at h0
      simpa using h0
    refine Desc.child Desc.refl hit0 ?_
    rw [hch]
    decide
  · rintro ⟨u, hu⟩
    have hmem : (u, 2) ∈ mC7.all_items := dictGet_mem hu
    have h2 : mC7.all_items = [(rootKey ++ ['1', '/'], 3),
        (rootKey ++ ['1', '/'], 2), (rootKey, 0)] := by decide
    rw [h2] at hmem
    simp only [List.mem_cons, List.mem_singleton, Prod.mk.injEq] at hmem
    rcases hmem with ⟨hu1, h3⟩ | ⟨hu1, -⟩ | ⟨-, h0⟩ | hnil
    · exact absurd h3 (by decide)
    · subst hu1
      rw [h2] at hu
      rw [dictGet_cons, if_pos rfl] at hu
      exact absurd (Option.some.inj hu) (by decide)
    · exact absurd h0 (by decide)
    · exact absurd hnil (List.not_mem_nil _)

/-- The attachment invariant: every live non-root key is recorded in
the child sequence of the live node at its parent key.  Together with
`Winv` it makes reachability from the root and presence in the mapping
agree. -/
def Att (m : OutlineModel) : Prop :=
  ∀ u i, live m u i → u ≠ rootKey → ∃ pid pit,
    live m (parentPathOf u) pid ∧ m.nodes[pid]? = some pit ∧ i ∈ pit.children

theorem live_init {t0 : Nat} {u : Key} {i : Nat} (h : live (initModel t0) u i) :
    u = rootKey ∧ i = 0 := by
  have h' : dictGet [(rootKey, 0)] u = some i := h
  rw [dictGet_cons] at h'
  by_cases hr : rootKey = u
  · rw [if_pos hr] at h'
    exact ⟨hr.symm, (Option.some.inj h').symm⟩
  · rw [if_neg hr] at h'
    exact absurd h' (by simp [dictGet])

theorem winv_init (t0 : Nat) : Winv (initModel t0) := by
  refine ⟨?_, ?_, ?_, ?_, ?_, ?_⟩
  · intro u i h
    obtain ⟨hu, hi⟩ := live_init h
    subst hu
    subst hi
    exact ⟨rootItem t0, rfl, rfl⟩
  · intro u i it h hit cid hc
    obtain ⟨hu, hi⟩ := live_init h
    subst hi
    have hone : it = rootItem t0 := (Option.some.inj hit).symm
    rw [hone] at hc
    exact absurd hc (by simp [rootItem])
  · intro u i it h hit
    obtain ⟨hu, hi⟩ := live_init h
    subst hi
    have hone : it = rootItem t0 := (Option.some.inj hit).symm
    rw [hone]
    simp [rootItem]
  · intro u i h hne
    exact absurd (live_init h).1 hne
  · intro u i h
    rw [(live_init h).1]
    decide
  · intro u i h hne
    exact absurd (live_init h).1 hne

theorem att_init (t0 : Nat) : Att (initModel t0) := by
  intro u i h hne
  exact absurd (live_init h).1 hne

/-- Transfer of `Winv` and `Att` along a state change that keeps the
mapping and, for every populated heap slot, the node's url and child
sequence. -/
theorem winv_att_of_shape {m m' : OutlineModel}
    (W : Winv m) (A : Att m)
    (hdict : m'.all_items = m.all_items)
    (hnodes : ∀ (j : Nat) (it : OutlineItem), m.nodes[j]? = some it →
      ∃ it', m'.nodes[j]? = some it' ∧ it'.url = it.url ∧
        it'.children = it.children) :
    Winv m' ∧ Att m' := by
  have hlive : ∀ u i, live m' u i ↔ live m u i := by
    intro u i
    unfold live
    rw [hdict]
  constructor
  · refine ⟨?_, ?_, ?_, ?_, ?_, ?_⟩
    · intro u i hli
      obtain ⟨it, hit, hurl⟩ := W.refs u i ((hlive u i).mp hli)
      obtain ⟨it', hit', hurl', -⟩ := hnodes i it hit
      exact ⟨it', hit', by rw [hurl', hurl]⟩
    · intro u i itx hli hitx cid hc
      obtain ⟨it, hit, hurl⟩ := W.refs u i ((hlive u i).mp hli)
      obtain ⟨it', hit', hurl', hch'⟩ := hnodes i it hit
      rw [hitx] at hit'
      have heq : itx = it' := Option.some.inj hit'
      rw [heq, hch'] at hc
      obtain ⟨c, hcn, hlc, hclen, hcp⟩ :=
        W.childs u i it ((hlive u i).mp hli) hit cid hc
      obtain ⟨c', hcn', hcu', -⟩ := hnodes cid c hcn
      refine ⟨c', hcn', ?_, ?_, ?_⟩
      · rw [hcu']
        exact (hlive c.url cid).mpr hlc
      · rw [hcu']
        exact hclen
      · rw [hcu']
        exact hcp
    · intro u i itx hli hitx
      obtain ⟨it, hit, -⟩ := W.refs u i ((hlive u i).mp hli)
      obtain ⟨it', hit', -, hch'⟩ := hnodes i it hit
      rw [hitx] at hit'
      have heq : itx = it' := Option.some.inj hit'
      rw [heq, hch']
      exact W.nodup u i it ((hlive u i).mp hli) hit
    · intro u i hli hne
      exact W.pshort u i ((hlive u i).mp hli) hne
    · intro u i hli
      exact W.ends u i ((hlive u i).mp hli)
    · intro u i hli hne
      exact W.rootlen u i ((hlive u i).mp hli) hne
  · intro u i hli hne
    obtain ⟨pid, pit, hlp, hpn, hin⟩ := A u i ((hlive u i).mp hli) hne
    obtain ⟨pit', hpn', -, hch'⟩ := hnodes pid pit hpn
    refine ⟨pid, pit', (hlive _ _).mpr hlp, hpn', ?_⟩
    rw [hch']
    exact hin

theorem winv_att_update {m : OutlineModel} (W : Winv m) (A : Att m)
    (p tx : Key) (t : Nat) :
    Winv (applyOp m (Op.update p tx t)) ∧ Att (applyOp m (Op.update p tx t)) := by
  cases hl : m.lookup p with
  | none =>
    have happ : applyOp m (Op.update p tx t) = m := by
      simp only [applyOp]
      unfold OutlineModel.update_item
      rw [hl]
    rw [happ]
    exact ⟨W, A⟩
  | some pr =>
    obtain ⟨i0, it0⟩ := pr
    have hi0n := (lookup_eq_some.mp hl).2
    have hi0 : i0 < m.nodes.length := (List.getElem?_eq_some.mp hi0n).1
    have happ : applyOp m (Op.update p tx t)
        = { m with
            nodes := m.nodes.set i0 ({ it0 with text := tx, last_modified := t })
            updated_items := setAdd m.updated_items p } := by
      simp only [applyOp]
      rw [update_item_of_lookup hl]
    rw [happ]
    refine winv_att_of_shape W A rfl ?_
    intro j it hit
    by_cases hj : j = i0
    · subst hj
      have heq : it = it0 := by
        rw [hit] at hi0n
        exact Option.some.inj hi0n
    
      refine ⟨{ it0 with text := tx, last_modified := t }, ?_, ?_, ?_⟩
      · exact getElem?_set_self hi0
      · rw [heq]
      · rw [heq]
    · refine ⟨it, ?_, rfl, rfl⟩
      show (m.nodes.set i0 _)[j]? = some it
      rw [List.getElem?_set_ne (by omega)]
      exact hit

theorem winv_att_create {m : OutlineModel} (W : Winv m) (A : Att m)
    {p : Key} {pid : Nat} {parent : OutlineItem}
    (hl : m.lookup p = some (pid, parent)) (tx : Key) (t : Nat)
    (hfresh : dictGet m.all_items
      (p ++ natToChars parent.children.length ++ ['/']) = none) :
    Winv (applyOp m (Op.create p tx t)) ∧ Att (applyOp m (Op.create p tx t)) := by
  have hpd := (lookup_eq_some.mp hl).1
  have hpn := (lookup_eq_some.mp hl).2
  have hpid : pid < m.nodes.length := (List.getElem?_eq_some.mp hpn).1
  have hpurl : parent.url = p := by
    obtain ⟨it, hit, hurl⟩ := W.refs p pid hpd
    rw [hpn] at hit
    rw [Option.some.inj hit]
    exact hurl
  have hpend : p.getLast? = some '/' := W.ends p pid hpd
  have hseglen : 0 < (natToChars parent.children.length).length :=
    List.length_pos.mpr (natToChars_ne_nil parent.children.length)
  have hnulen : (p ++ natToChars parent.children.length ++ ['/']).length
      = p.length + (natToChars parent.children.length).length + 1 := by
    rw [List.length_append, List.length_append, List.length_singleton]
  have hppnu : parentPathOf (p ++ natToChars parent.children.length ++ ['/']) = p := by
    rw [List.append_assoc]
    exact parentPathOf_append p _ hpend (natToChars_no_slash _)
  have hnuend : (p ++ natToChars parent.children.length ++ ['/']).getLast?
      = some '/' := by
    rw [List.append_assoc]
    exact endSlash_concat _ _
  have hnuroot : p ++ natToChars parent.children.length ++ ['/'] ≠ rootKey := by
    rw [List.append_assoc]
    exact rootKey_not_seg p parent.children.length
  have hnune : ∀ (u : Key) (i : Nat), dictGet m.all_items u = some i →
      p ++ natToChars parent.children.length ++ ['/'] ≠ u := by
    intro u i hu he
    rw [he] at hfresh
    rw [hfresh] at hu
    exact Option.noConfusion hu
  have hlive' : ∀ (u : Key) (i : Nat),
      dictGet (dictInsert m.all_items
        (p ++ natToChars parent.children.length ++ ['/']) m.nodes.length) u
        = some i ↔
      ((p ++ natToChars parent.children.length ++ ['/']) = u
          ∧ i = m.nodes.length) ∨
      ((p ++ natToChars parent.children.length ++ ['/']) ≠ u
          ∧ dictGet m.all_items u = some i) := by
    intro u i
    rw [dictGet_insert]
    by_cases h : (p ++ natToChars parent.children.length ++ ['/']) = u
    · rw [if_pos h]
      constructor
      · intro hh
        exact Or.inl ⟨h, (Option.some.inj hh).symm⟩
      · rintro (⟨-, hi⟩ | ⟨hne, -⟩)
        · rw [hi]
        · exact absurd h hne
    · rw [if_neg h]
      constructor
      · intro hh
        exact Or.inr ⟨h, hh⟩
      · rintro (⟨he, -⟩ | ⟨-, hh⟩)
        · exact absurd he h
        · exact hh
  have hgetP : (m.nodes.set pid (parent.add_child m.nodes.length t)
      ++ [(⟨p ++ natToChars parent.children.length ++ ['/'], tx, [], t⟩
        : OutlineItem)])[pid]?
      = some (parent.add_child m.nodes.length t) :=
    getElem?_set_append_self hpid
  have hgetNew : (m.nodes.set pid (parent.add_child m.nodes.length t)
      ++ [(⟨p ++ natToChars parent.children.length ++ ['/'], tx, [], t⟩
        : OutlineItem)])[m.nodes.length]?
      = some (⟨p ++ natToChars parent.children.length ++ ['/'], tx, [], t⟩
        : OutlineItem) :=
    getElem?_set_append_last
  have hgetOld : ∀ (j : Nat) (it : OutlineItem), m.nodes[j]? = some it → j ≠ pid →
      (m.nodes.set pid (parent.add_child m.nodes.length t)
        ++ [(⟨p ++ natToChars parent.children.length ++ ['/'], tx, [], t⟩
          : OutlineItem)])[j]? = some it := by
    intro j it hit hne
    rw [getElem?_set_append_other hne
      (Nat.ne_of_lt (List.getElem?_eq_some.mp hit).1)]
    exact hit
  have hnodupP : (parent.children ++ [m.nodes.length]).Nodup := by
    rw [List.nodup_append]
    refine ⟨W.nodup p pid parent hpd hpn, List.nodup_singleton _, ?_⟩
    intro a ha hb
    rw [List.mem_singleton] at hb
    obtain ⟨c, hcn, -, -, -⟩ := W.childs p pid parent hpd hpn a ha
    rw [hb] at hcn
    exact absurd (List.getElem?_eq_some.mp hcn).1 (by omega)
  have happ : applyOp m (Op.create p tx t)
      = (m.create_item p tx t).elim m (fun pr => pr.2) := by
    simp only [applyOp]
    rw [create_item_of_lookup hl]
    rfl
  rw [happ, create_item_of_lookup hl]
  constructor
  · refine ⟨?_, ?_, ?_, ?_, ?_, ?_⟩
    · intro u i hli
      have hli2 : dictGet (dictInsert m.all_items
          (p ++ natToChars parent.children.length ++ ['/']) m.nodes.length) u
          = some i := hli
      rcases (hlive' u i).mp hli2 with ⟨hu, hi⟩ | ⟨hneq, hold⟩
      · subst hu
        subst hi
        exact ⟨_, hgetNew, rfl⟩
      · obtain ⟨it, hit, hurl⟩ := W.refs u i hold
        by_cases hip : i = pid
        · subst hip
          rw [hpn] at hit
          have heq : parent = it := Option.some.inj hit
          refine ⟨parent.add_child m.nodes.length t, hgetP, ?_⟩
          show parent.url = u
          rw [heq]
          exact hurl
        · exact ⟨it, hgetOld i it hit hip, hurl⟩
    · intro u i itx hli hitx cid hc
      have hli2 : dictGet (dictInsert m.all_items
          (p ++ natToChars parent.children.length ++ ['/']) m.nodes.length) u
          = some i := hli
      rcases (hlive' u i).mp hli2 with ⟨hu, hi⟩ | ⟨hneq, hold⟩
      · subst hi
        have hitx0 : (m.nodes.set pid (parent.add_child m.nodes.length t)
            ++ [(⟨p ++ natToChars parent.children.length ++ ['/'], tx, [], t⟩
              : OutlineItem)])[m.nodes.length]? = some itx := hitx
        rw [hgetNew] at hitx0
        have heq : itx = ⟨p ++ natToChars parent.children.length ++ ['/'],
            tx, [], t⟩ := (Option.some.inj hitx0).symm
        rw [heq] at hc
        exact absurd hc (by simp)
      · obtain ⟨it, hit, hurl⟩ := W.refs u i hold
        by_cases hip : i = pid
        · have hit' : m.nodes[pid]? = some it := by
            rw [← hip]
            exact hit
          rw [hpn] at hit'
          have heq : parent = it := Option.some.inj hit'
          have hup : u = p := by
            rw [← hurl, ← heq]
            exact hpurl
          have hold' : dictGet m.all_items u = some pid := by
            rw [← hip]
            exact hold
          have hitx0 : (m.nodes.set pid (parent.add_child m.nodes.length t)
              ++ [(⟨p ++ natToChars parent.children.length ++ ['/'], tx, [], t⟩
                : OutlineItem)])[pid]? = some itx := by
            rw [hip] at hitx
            exact hitx
          rw [hgetP] at hitx0
          have heqx : itx = parent.add_child m.nodes.length t :=
            (Option.some.inj hitx0).symm
          have hc' : cid ∈ parent.children ++ [m.nodes.length] := by
            rw [heqx] at hc
            exact hc
          rcases List.mem_append.mp hc' with hcold | hcnew
          · obtain ⟨c, hcn, hlc, hclen, hcp⟩ :=
              W.childs u pid parent hold' hpn cid hcold
            have hcidne : cid ≠ pid := by
              intro he
              rw [he, hpn] at hcn
              have hpc := Option.some.inj hcn
              rw [← hpc, hpurl] at hclen
              rw [hup] at hclen
              omega
            refine ⟨c, hgetOld cid c hcn hcidne, ?_, hclen, hcp⟩
            exact (hlive' c.url cid).mpr (Or.inr ⟨hnune c.url cid hlc, hlc⟩)
          · rw [List.mem_singleton] at hcnew
            subst hcnew
            refine ⟨⟨p ++ natToChars parent.children.length ++ ['/'],
              tx, [], t⟩, hgetNew, ?_, ?_, ?_⟩
            · exact (hlive' _ _).mpr (Or.inl ⟨rfl, rfl⟩)
            · show u.length < (p ++ natToChars parent.children.length
                ++ ['/']).length
              rw [hup, hnulen]
              omega
            · show parentPathOf (p ++ natToChars parent.children.length
                ++ ['/']) = u
              rw [hup]
              exact hppnu
        · have hitx0 : (m.nodes.set pid (parent.add_child m.nodes.length t)
              ++ [(⟨p ++ natToChars parent.children.length ++ ['/'], tx, [], t⟩
                : OutlineItem)])[i]? = some itx := hitx
          rw [hgetOld i it hit hip] at hitx0
          have heqx : itx = it := (Option.some.inj hitx0).symm
          rw [heqx] at hc
          obtain ⟨c, hcn, hlc, hclen, hcp⟩ := W.childs u i it hold hit cid hc
          by_cases hcp2 : cid = pid
          · subst hcp2
            rw [hpn] at hcn
            have hpc : parent = c := Option.some.inj hcn
            refine ⟨parent.add_child m.nodes.length t, hgetP, ?_, ?_, ?_⟩
            · show dictGet _ parent.url = some cid
              rw [hpurl]
              refine (hlive' p cid).mpr (Or.inr ⟨hnune p cid ?_, ?_⟩)
              · rw [← hpurl, hpc]
                exact hlc
              · rw [← hpurl, hpc]
                exact hlc
            · show u.length < parent.url.length
              rw [hpc]
              exact hclen
            · show parentPathOf parent.url = u
              rw [hpc]
              exact hcp
          · refine ⟨c, hgetOld cid c hcn hcp2, ?_, hclen, hcp⟩
            exact (hlive' c.url cid).mpr (Or.inr ⟨hnune c.url cid hlc, hlc⟩)
    · intro u i itx hli hitx
      have hli2 : dictGet (dictInsert m.all_items
          (p ++ natToChars parent.children.length ++ ['/']) m.nodes.length) u
          = some i := hli
      rcases (hlive' u i).mp hli2 with ⟨hu, hi⟩ | ⟨hneq, hold⟩
      · subst hi
        have hitx0 : (m.nodes.set pid (parent.add_child m.nodes.length t)
            ++ [(⟨p ++ natToChars parent.children.length ++ ['/'], tx, [], t⟩
              : OutlineItem)])[m.nodes.length]? = some itx := hitx
        rw [hgetNew] at hitx0
        have heq : itx = ⟨p ++ natToChars parent.children.length ++ ['/'],
            tx, [], t⟩ := (Option.some.inj hitx0).symm
        rw [heq]
        simp
      · obtain ⟨it, hit, -⟩ := W.refs u i hold
        by_cases hip : i = pid
        · have hitx0 : (m.nodes.set pid (parent.add_child m.nodes.length t)
              ++ [(⟨p ++ natToChars parent.children.length ++ ['/'], tx, [], t⟩
                : OutlineItem)])[pid]? = some itx := by
            rw [hip] at hitx
            exact hitx
          rw [hgetP] at hitx0
          have heqx : itx = parent.add_child m.nodes.length t :=
            (Option.some.inj hitx0).symm
          rw [heqx]
          exact hnodupP
        · have hitx0 : (m.nodes.set pid (parent.add_child m.nodes.length t)
              ++ [(⟨p ++ natToChars parent.children.length ++ ['/'], tx, [], t⟩
                : OutlineItem)])[i]? = some itx := hitx
          rw [hgetOld i it hit hip] at hitx0
          have heqx : itx = it := (Option.some.inj hitx0).symm
          rw [heqx]
          exact W.nodup u i it hold hit
    · intro u i hli hne
      have hli2 : dictGet (dictInsert m.all_items
          (p ++ natToChars parent.children.length ++ ['/']) m.nodes.length) u
          = some i := hli
      rcases (hlive' u i).mp hli2 with ⟨hu, hi⟩ | ⟨hneq, hold⟩
      · subst hu
        rw [hppnu, hnulen]
        omega
      · exact W.pshort u i hold hne
    · intro u i hli
      have hli2 : dictGet (dictInsert m.all_items
          (p ++ natToChars parent.children.length ++ ['/']) m.nodes.length) u
          = some i := hli
      rcases (hlive' u i).mp hli2 with ⟨hu, hi⟩ | ⟨hneq, hold⟩
      · rw [← hu]
        exact hnuend
      · exact W.ends u i hold
    · intro u i hli hne
      have hli2 : dictGet (dictInsert m.all_items
          (p ++ natToChars parent.children.length ++ ['/']) m.nodes.length) u
          = some i := hli
      rcases (hlive' u i).mp hli2 with ⟨hu, hi⟩ | ⟨hneq, hold⟩
      · subst hu
        rw [hnulen]
        by_cases hpr : p = rootKey
        · rw [hpr]
          omega
        · have := W.rootlen p pid hpd hpr
          omega
      · exact W.rootlen u i hold hne
  · intro u i hli hne
    have hli2 : dictGet (dictInsert m.all_items
        (p ++ natToChars parent.children.length ++ ['/']) m.nodes.length) u
        = some i := hli
    rcases (hlive' u i).mp hli2 with ⟨hu, hi⟩ | ⟨hneq, hold⟩
    · subst hu
      subst hi
      refine ⟨pid, parent.add_child m.nodes.length t, ?_, hgetP, ?_⟩
      · show dictGet _ (parentPathOf (p ++ natToChars parent.children.length
          ++ ['/'])) = some pid
        rw [hppnu]
        exact (hlive' p pid).mpr (Or.inr ⟨hnune p pid hpd, hpd⟩)
      · show m.nodes.length ∈ parent.children ++ [m.nodes.length]
        simp
    · obtain ⟨pid2, pit2, hlp2, hpn2, hin2⟩ := A u i hold hne
      have hlp2' : dictGet (dictInsert m.all_items
          (p ++ natToChars parent.children.length ++ ['/']) m.nodes.length)
          (parentPathOf u) = some pid2 :=
        (hlive' _ _).mpr (Or.inr ⟨hnune _ _ hlp2, hlp2⟩)
      by_cases hp2 : pid2 = pid
      · subst hp2
        rw [hpn] at hpn2
        have hpe : pit2 = parent := (Option.some.inj hpn2).symm
        rw [hpe] at hin2
        refine ⟨pid2, parent.add_child m.nodes.length t, hlp2', hgetP, ?_⟩
        show i ∈ parent.children ++ [m.nodes.length]
        exact List.mem_append_left _ hin2
      · exact ⟨pid2, pit2, hlp2', hgetOld pid2 pit2 hpn2 hp2, hin2⟩

theorem remove_child_mem_of_ne {pit : OutlineItem} {i id : Nat} (t : Nat)
    (hne : i ≠ id) (hmem : i ∈ pit.children) :
    i ∈ ((pit.remove_child id t).1).children := by
  unfold OutlineItem.remove_child
  by_cases h : id ∈ pit.children
  · rw [if_pos h]
    show i ∈ pit.children.erase id
    exact (List.mem_erase_of_ne hne).mpr hmem
  · rw [if_neg h]
    exact hmem

theorem winv_att_delete {m : OutlineModel} (W : Winv m) (A : Att m)
    (p : Key) (t : Nat) :
    Winv (applyOp m (Op.delete p t)) ∧ Att (applyOp m (Op.delete p t)) := by
  have happ : applyOp m (Op.delete p t)
      = (deleteFuel (m.all_items.length + 1) m p t).2 := rfl
  rw [happ]
  by_cases hr : p = rootKey
  · have hmm : (deleteFuel (m.all_items.length + 1) m p t).2 = m := by
      rw [deleteFuel, if_pos hr]
    rw [hmm]
    exact ⟨W, A⟩
  · cases hlk : m.lookup p with
    | none =>
      have hmm : (deleteFuel (m.all_items.length + 1) m p t).2 = m := by
        rw [deleteFuel, if_neg hr, hlk]
      rw [hmm]
      exact ⟨W, A⟩
    | some pr =>
      obtain ⟨id, item⟩ := pr
      have hdict := (lookup_eq_some.mp hlk).1
      have hnode := (lookup_eq_some.mp hlk).2
      have hD := deleteFuel_del t (m.all_items.length + 1) m p id item W hdict
        hnode hr (by have := keyMeasure_le_length m p; omega)
      refine ⟨hD.winv, ?_⟩
      intro u i hli hne
      have hli2 : dictGet (deleteFuel (m.all_items.length + 1) m p t).2.all_items
          u = some i := hli
      have hitemurl : item.url = p := by
        obtain ⟨it2, hit2, hurl2⟩ := W.refs p id hdict
        rw [hnode] at hit2
        rw [Option.some.inj hit2]
        exact hurl2
      have hNotDesc : ¬ DescKey m id u := by
        intro hdk
        rw [hD.removed u hdk] at hli2
        exact Option.noConfusion hli2
      have hold : dictGet m.all_items u = some i := by
        rw [← hD.frame u hNotDesc]
        exact hli2
      have hup : u ≠ p := by
        intro he
        apply hNotDesc
        rw [he, ← hitemurl]
        exact descKey_self hnode
      obtain ⟨pid2, pit2, hlp2, hpn2, hin2⟩ := A u i hold hne
      have hpit2url : pit2.url = parentPathOf u := by
        obtain ⟨x, hx, hxu⟩ := W.refs (parentPathOf u) pid2 hlp2
        rw [hpn2] at hx
        rw [Option.some.inj hx]
        exact hxu
      have hNotDescP : ¬ DescKey m id (parentPathOf u) := by
        rintro ⟨j, jt, hdj, hjt, hju⟩
        apply hNotDesc
        obtain ⟨jt', hjt', hlj', -⟩ := desc_live W hdict hdj
        rw [hjt'] at hjt
        have hjeq : jt' = jt := Option.some.inj hjt
        rw [hjeq, hju] at hlj'
        have hjp : j = pid2 := live_unique hlj' hlp2
        obtain ⟨iti, hiti, hitiu⟩ := W.refs u i hold
        refine ⟨i, iti, ?_, hiti, hitiu⟩
        refine Desc.child ?_ hpn2 hin2
        rw [← hjp]
        exact hdj
      have hlp2' : live (deleteFuel (m.all_items.length + 1) m p t).2
          (parentPathOf u) pid2 := by
        show dictGet (deleteFuel (m.all_items.length + 1) m p t).2.all_items
          (parentPathOf u) = some pid2
        rw [hD.frame _ hNotDescP]
        exact hlp2
      have hine : i ≠ id := by
        intro he
        apply hup
        obtain ⟨iti, hiti, hitiu⟩ := W.refs u i hold
        rw [he, hnode] at hiti
        rw [← hitiu, ← Option.some.inj hiti]
        exact hitemurl
      by_cases hpp : parentPathOf u = parentPathOf p
      · have hlpp : live m (parentPathOf p) pid2 := by
          rw [← hpp]
          exact hlp2
        have hpn2' := hD.parentNode pid2 pit2 hlpp hpn2
        refine ⟨pid2, (pit2.remove_child id t).1, hlp2', hpn2', ?_⟩
        exact remove_child_mem_of_ne t hine hin2
      · have hpn2' := hD.nodesFrame pid2 pit2 hpn2
          (by rw [hpit2url]; exact hpp)
          (by rw [hpit2url]; exact hNotDescP)
        exact ⟨pid2, pit2, hlp2', hpn2', hin2⟩

/-- A create operation is collision-free in the given state: the key it
would derive is not yet present in the mapping.  Updates and deletes
never derive keys. -/
def opFresh (m : OutlineModel) : Op → Bool
  | Op.create p _ _ =>
    match m.lookup p with
    | none => true
    | some (_, parent) =>
      decide (dictGet m.all_items
        (p ++ natToChars parent.children.length ++ ['/']) = none)
  | Op.update _ _ _ => true
  | Op.delete _ _ => true

/-- The whole trace is collision-free from the given start state. -/
def collFree : OutlineModel → List Op → Bool
  | _, [] => true
  | m, o :: rest => opFresh m o && collFree (applyOp m o) rest

theorem winv_att_applyOp {m : OutlineModel} (W : Winv m) (A : Att m)
    (o : Op) (hf : opFresh m o = true) :
    Winv (applyOp m o) ∧ Att (applyOp m o) := by
  cases o with
  | create p tx t =>
    cases hl : m.lookup p with
    | none =>
      have happ : applyOp m (Op.create p tx t) = m := by
        simp only [applyOp]
        unfold OutlineModel.create_item
        rw [hl]
      rw [happ]
      exact ⟨W, A⟩
    | some pr =>
      obtain ⟨pid, parent⟩ := pr
      have hf' : dictGet m.all_items
          (p ++ natToChars parent.children.length ++ ['/']) = none := by
        simp only [opFresh] at hf
        rw [hl] at hf
        exact of_decide_eq_true hf
      exact winv_att_create W A hl tx t hf'
  | update p tx t => exact winv_att_update W A p tx t
  | delete p t => exact winv_att_delete W A p t

theorem winv_att_applyOps (ops : List Op) :
    ∀ m, collFree m ops = true → Winv m → Att m →
    Winv (applyOps m ops) ∧ Att (applyOps m ops) := by
  induction ops with
  | nil =>
    intro m _ W A
    exact ⟨W, A⟩
  | cons o rest ih =>
    intro m hcf W A
    have hcf2 : (opFresh m o && collFree (applyOp m o) rest) = true := hcf
    rw [Bool.and_eq_true] at hcf2
    obtain ⟨W', A'⟩ := winv_att_applyOp W A o hcf2.1
    exact ih (applyOp m o) hcf2.2 W' A'

/-- On stores satisfying the two invariants, reachability from the root
along the children chain agrees with presence in the mapping. -/
theorem reach_iff_mapped {m : OutlineModel} (W : Winv m) (A : Att m) (i : Nat) :
    Reach m i ↔ ∃ u, dictGet m.all_items u = some i := by
  constructor
  · rintro ⟨r, hroot, hd⟩
    induction hd with
    | refl => exact ⟨rootKey, hroot⟩
    | child hd' hjt hk ih =>
      obtain ⟨u, hu⟩ := ih
      obtain ⟨c, -, hlc, -, -⟩ := W.childs u _ _ hu hjt _ hk
      exact ⟨c.url, hlc⟩
  · rintro ⟨u, hu⟩
    have H : ∀ (n : Nat) (v : Key) (j : Nat), v.length = n →
        dictGet m.all_items v = some j → Reach m j := by
      intro n
      induction n using Nat.strong_induction_on with
      | _ n ih =>
        intro v j hlen hv
        by_cases hr : v = rootKey
        · rw [hr] at hv
          exact ⟨j, hv, Desc.refl⟩
        · obtain ⟨pid, pit, hlp, hpn, hin⟩ := A v j hv hr
          have hshort := W.pshort v j hv hr
          obtain ⟨r, hroot, hd⟩ := ih (parentPathOf v).length (by omega)
            (parentPathOf v) pid rfl hlp
          exact ⟨r, hroot, Desc.child hd hpn hin⟩
    exact H u.length u i rfl hu

/-- Heap slots never change their url under any operation: a node's key
is immutable after creation (this holds even on collision traces). -/
theorem applyOp_url_stable (m : OutlineModel) (o : Op) :
    ∀ (j : Nat) (it : OutlineItem), m.nodes[j]? = some it →
    ∃ it', (applyOp m o).nodes[j]? = some it' ∧ it'.url = it.url := by
  cases o with
  | create p tx t =>
    cases hl : m.lookup p with
    | none =>
      have happ : applyOp m (Op.create p tx t) = m := by
        simp only [applyOp]
        unfold OutlineModel.create_item
        rw [hl]
      rw [happ]
      intro j it hit
      exact ⟨it, hit, rfl⟩
    | some pr =>
      obtain ⟨pid, parent⟩ := pr
      have hpn := (lookup_eq_some.mp hl).2
      have hpid : pid < m.nodes.length := (List.getElem?_eq_some.mp hpn).1
      have happ : applyOp m (Op.create p tx t)
          = (m.create_item p tx t).elim m (fun pr => pr.2) := by
        simp only [applyOp]
        rw [create_item_of_lookup hl]
        rfl
      rw [happ, create_item_of_lookup hl]
      intro j it hit
      by_cases hj : j = pid
      · refine ⟨parent.add_child m.nodes.length t, ?_, ?_⟩
        · show (m.nodes.set pid (parent.add_child m.nodes.length t)
            ++ [(⟨p ++ natToChars parent.children.length ++ ['/'], tx, [], t⟩
              : OutlineItem)])[j]? = _
          rw [hj]
          exact getElem?_set_append_self hpid
        · show parent.url = it.url
          rw [hj, hpn] at hit
          rw [Option.some.inj hit]
      · refine ⟨it, ?_, rfl⟩
        show (m.nodes.set pid (parent.add_child m.nodes.length t)
          ++ [(⟨p ++ natToChars parent.children.length ++ ['/'], tx, [], t⟩
            : OutlineItem)])[j]? = some it
        rw [getElem?_set_append_other hj
          (Nat.ne_of_lt (List.getElem?_eq_some.mp hit).1)]
        exact hit
  | update p tx t =>
    cases hl : m.lookup p with
    | none =>
      have happ : applyOp m (Op.update p tx t) = m := by
        simp only [applyOp]
        unfold OutlineModel.update_item
        rw [hl]
      rw [happ]
      intro j it hit
      exact ⟨it, hit, rfl⟩
    | some pr =>
      obtain ⟨i0, it0⟩ := pr
      have hi0n := (lookup_eq_some.mp hl).2
      have hi0 : i0 < m.nodes.length := (List.getElem?_eq_some.mp hi0n).1
      have happ : applyOp m (Op.update p tx t)
          = { m with
              nodes := m.nodes.set i0 ({ it0 with text := tx, last_modified := t })
              updated_items := setAdd m.updated_items p } := by
        simp only [applyOp]
        rw [update_item_of_lookup hl]
      rw [happ]
      intro j it hit
      by_cases hj : j = i0
      · refine ⟨{ it0 with text := tx, last_modified := t }, ?_, ?_⟩
        · show (m.nodes.set i0 _)[j]? = _
          rw [hj]
          exact getElem?_set_self hi0
        · show it0.url = it.url
          rw [hj, hi0n] at hit
          rw [Option.some.inj hit]
      · refine ⟨it, ?_, rfl⟩
        show (m.nodes.set i0 _)[j]? = some it
        rw [List.getElem?_set_ne (by omega)]
        exact hit
  | delete p t =>
    intro j it hit
    obtain ⟨it', hit', hu', -, -⟩ :=
      (shrinks_deleteFuel t (m.all_items.length + 1) m p).urls j it hit
    exact ⟨it', hit', hu'⟩

theorem applyOps_url_stable (ops : List Op) :
    ∀ (m : OutlineModel) (j : Nat) (it : OutlineItem), m.nodes[j]? = some it →
    ∃ it', (applyOps m ops).nodes[j]? = some it' ∧ it'.url = it.url := by
  induction ops with
  | nil =>
    intro m j it hit
    exact ⟨it, hit, rfl⟩
  | cons o rest ih =>
    intro m j it hit
    obtain ⟨it1, hit1, hu1⟩ := applyOp_url_stable m o j it hit
    obtain ⟨it2, hit2, hu2⟩ := ih (applyOp m o) j it1 hit1
    exact ⟨it2, hit2, by rw [hu2, hu1]⟩

theorem applyOps_take_drop (m : OutlineModel) (ops : List Op) (n : Nat) :
    applyOps (applyOps m (ops.take n)) (ops.drop n) = applyOps m ops := by
  unfold applyOps
  rw [← List.foldl_append]
  rw [List.take_append_drop]

/-- Claim C7 as amended: in every store state reachable from
initialization by a collision-free trace (no create ever derives a key
already present in the mapping — which a delete of a non-last child can
otherwise cause), a heap node is reachable from the root via the
children chain iff some key of the mapping resolves to it, and every
populated heap slot keeps the url it had at any earlier point of the
trace (keys are unchanged since creation). -/
theorem c7_reach_amended (t0 : Nat) (ops : List Op)
    (hcf : collFree (initModel t0) ops = true) :
    (∀ i, Reach (applyOps (initModel t0) ops) i ↔
      ∃ u, dictGet (applyOps (initModel t0) ops).all_items u = some i) ∧
    (∀ (n j : Nat) (it : OutlineItem),
      (applyOps (initModel t0) (ops.take n)).nodes[j]? = some it →
      ∃ it', (applyOps (initModel t0) ops).nodes[j]? = some it' ∧
        it'.url = it.url) := by
  obtain ⟨W, A⟩ := winv_att_applyOps ops (initModel t0) hcf
    (winv_init t0) (att_init t0)
  constructor
  · intro i
    exact reach_iff_mapped W A i
  · intro n j it hit
    obtain ⟨it', hit', hu'⟩ := applyOps_url_stable (ops.drop n)
      (applyOps (initModel t0) (ops.take n)) j it hit
    rw [applyOps_take_drop] at hit'
    exact ⟨it', hit', hu'⟩

theorem c7_reach_amended_witness :
    (∀ i, Reach (applyOps (initModel 0) [Op.create rootKey ['A'] 1,
        Op.create (rootKey ++ ['0', '/']) ['B'] 2,
        Op.delete (rootKey ++ ['0', '/']) 3]) i ↔
      ∃ u, dictGet (applyOps (initModel 0) [Op.create rootKey ['A'] 1,
        Op.create (rootKey ++ ['0', '/']) ['B'] 2,
        Op.delete (rootKey ++ ['0', '/']) 3]).all_items u = some i) ∧
    (∀ (n j : Nat) (it : OutlineItem),
      (applyOps (initModel 0) ([Op.create rootKey ['A'] 1,
        Op.create (rootKey ++ ['0', '/']) ['B'] 2,
        Op.delete (rootKey ++ ['0', '/']) 3].take n)).nodes[j]? = some it →
      ∃ it', (applyOps (initModel 0) [Op.create rootKey ['A'] 1,
        Op.create (rootKey ++ ['0', '/']) ['B'] 2,
        Op.delete (rootKey ++ ['0', '/']) 3]).nodes[j]? = some it' ∧
        it'.url = it.url) :=
  c7_reach_amended 0 [Op.create rootKey ['A'] 1,
    Op.create (rootKey ++ ['0', '/']) ['B'] 2,
    Op.delete (rootKey ++ ['0', '/']) 3] (by decide)
